import Mathlib

/-
  Verification of the chinese-postman pipeline (postman.py).

  The program is embedded shallowly: vertices are integers, graphs are
  lists of nodes, node attributes and edges in insertion order, mirroring
  the networkx Graph/MultiGraph objects the script builds.  Python
  exceptions are modelled by an explicit error type threaded through
  Except.  Library routines whose source is not part of the repository
  (networkx shortest paths, matching, Eulerian circuits, component
  subgraphs) are modelled from their documented behaviour and from the
  specification's description of the corresponding pipeline stage.
-/

set_option maxRecDepth 40000

namespace Postman

/-- Vertex identifiers: Python integers. -/
abbrev V := Int

/-- An edge of the base graph: endpoints plus the weight and id attributes
set by import_csv_graph. -/
structure Edge where
  u : V
  v : V
  weight : Int
  eid : String
deriving DecidableEq, Repr

/-- The networkx Graph built by the script: node list (insertion order),
per-node longitude/latitude attributes, and edge list. -/
structure Graph where
  nodes : List V
  nodeAttrs : List (V × String × String)
  edges : List Edge
deriving DecidableEq, Repr

/-- Python exceptions and the spec's error taxonomy, as one type. The
script itself only ever produces keyError, indexError, valueError and
notEulerian / nxPointless (networkx errors); the remaining constructors
are the error classes named by the specification. -/
inductive PErr where
  | keyError
  | indexError
  | valueError
  | notEulerian
  | nxPointless
  | emptyGraphError
  | invalidEdgeError
  | noPerfectMatchingError
  | disconnectedGraphError
deriving DecidableEq, Repr

/-- Two unordered endpoint pairs coincide. -/
def sameUPair (a b c d : V) : Prop := (a = c ∧ b = d) ∨ (a = d ∧ b = c)

instance (a b c d : V) : Decidable (sameUPair a b c d) := by
  unfold sameUPair; infer_instance

/-- Degree of a vertex: number of incident edges (graph.degree). -/
def Graph.degree (g : Graph) (x : V) : Nat :=
  g.edges.countP (fun e => decide (e.u = x ∨ e.v = x))

/-- Neighbours of a vertex, in edge-list order. -/
def Graph.nbrs (g : Graph) (x : V) : List V :=
  g.edges.foldr (fun e acc =>
    if e.u = x then e.v :: acc else if e.v = x then e.u :: acc else acc) []

/-- Adjacency of two vertices. -/
def Graph.adj (g : Graph) (x y : V) : Prop :=
  ∃ e ∈ g.edges, (e.u = x ∧ e.v = y) ∨ (e.u = y ∧ e.v = x)

/-- Well-formedness of a base graph as the pipeline's data model has it:
distinct nodes, edge endpoints registered as nodes, no self-loops, and no
two edges on the same unordered endpoint pair. -/
def Graph.WF (g : Graph) : Prop :=
  g.nodes.Nodup ∧
  (∀ e ∈ g.edges, e.u ∈ g.nodes ∧ e.v ∈ g.nodes ∧ e.u ≠ e.v) ∧
  g.edges.Pairwise (fun e f => ¬ sameUPair e.u e.v f.u f.v)

instance (g : Graph) : Decidable g.WF := by
  unfold Graph.WF; infer_instance

/-! ### Graph construction (import_csv_graph) -/

/-- networkx add_node: appends the node if it is not present yet. -/
def Graph.add_node (g : Graph) (x : V) : Graph :=
  if x ∈ g.nodes then g else { g with nodes := g.nodes ++ [x] }

/-- Insert or overwrite the edge on the unordered pair (u,v): networkx
add_edge silently replaces the attributes of an existing edge. -/
def updEdge (u v : V) (w : Int) (id : String) : List Edge → List Edge
  | [] => [⟨u, v, w, id⟩]
  | e :: es =>
    if sameUPair e.u e.v u v then ⟨e.u, e.v, w, id⟩ :: es
    else e :: updEdge u v w id es

/-- networkx Graph.add_edge(u, v, weight=w, id=id): creates missing
endpoint nodes, then inserts or overwrites the edge.  No validation of
any kind is performed (self-loops and negative weights are accepted). -/
def Graph.add_edge (g : Graph) (u v : V) (w : Int) (id : String) : Graph :=
  let g' := (g.add_node u).add_node v
  { g' with edges := updEdge u v w id g'.edges }

/-- Set (or overwrite) the longitude/latitude attributes of a node. -/
def updAttr (x : V) (lon lat : String) :
    List (V × String × String) → List (V × String × String)
  | [] => [(x, lon, lat)]
  | a :: as_ =>
    if a.1 = x then (x, lon, lat) :: as_ else a :: updAttr x lon lat as_

/-- graph.node[x]['longitude'] = lon; graph.node[x]['latitude'] = lat. -/
def Graph.setAttrs (g : Graph) (x : V) (lon lat : String) : Graph :=
  { g with nodeAttrs := updAttr x lon lat g.nodeAttrs }

/-- Python str.isdigit: nonempty and all characters digits. -/
def pyIsDigit (s : String) : Bool :=
  !s.toList.isEmpty && s.toList.all Char.isDigit

/-- Parse a list of digit characters to a number, failing on a
non-digit. -/
def digitsToNat (cs : List Char) : Option Nat :=
  cs.foldl (fun acc c =>
    match acc with
    | none => none
    | some n => if c.isDigit then some (n * 10 + (c.toNat - 48)) else none)
    (some 0)

/-- Python int(s) on the strings the script feeds it: an optional minus
sign followed by digits; anything else raises ValueError (modelled as
none). -/
def pyInt (s : String) : Option Int :=
  match s.toList with
  | [] => none
  | '-' :: rest =>
    if rest.isEmpty then none
    else (digitsToNat rest).map (fun n => -(n : Int))
  | cs => (digitsToNat cs).map (fun n => (n : Int))

/-- Process one CSV row exactly as the import loop does: skip rows whose
first field is not all digits; otherwise parse the first three fields as
integers, unpack the next five, add the edge and set the endpoint
coordinate attributes.  Python exceptions (IndexError on an empty row,
ValueError on parse/unpack failure) abort the whole import. -/
def processRow (g : Graph) (row : List String) : Except PErr Graph :=
  match row with
  | [] => .error .indexError
  | r0 :: _ =>
    if ¬ pyIsDigit r0 then .ok g
    else
      match row with
      | su :: sv :: sw :: id :: lon1 :: lat1 :: lon2 :: lat2 :: _ =>
        match pyInt su, pyInt sv, pyInt sw with
        | some nu, some nv, some w =>
          .ok ((((g.add_edge nu nv w id).setAttrs nu lon1 lat1).setAttrs nv lon2 lat2))
        | _, _, _ => .error .valueError
      | _ => .error .valueError

def importRows (g : Graph) : List (List String) → Except PErr Graph
  | [] => .ok g
  | row :: rows =>
    match processRow g row with
    | .error e => .error e
    | .ok g2 => importRows g2 rows

/-- import_csv_graph: fold the rows over an initially empty graph. -/
def import_csv_graph (rows : List (List String)) : Except PErr Graph :=
  importRows ⟨[], [], []⟩ rows

/-! ### Reachability closure

A generic breadth-first closure over a neighbour function, used for the
undirected-reachability computations the script delegates to networkx
(connected components, the is_connected test inside eulerian_circuit). -/

/-- Append each listed vertex that is not yet present. -/
def insN (acc : List V) : List V → List V
  | [] => acc
  | w :: ws => if w ∈ acc then insN acc ws else insN (acc ++ [w]) ws

/-- Expand one frontier: append all fresh neighbours of its members. -/
def expandC (nbrs : V → List V) (acc : List V) : List V → List V
  | [] => acc
  | x :: fr => expandC nbrs (insN acc (nbrs x)) fr

/-- Fuelled closure loop: repeatedly expand the still-unexpanded suffix
of the accumulated vertex list until no vertex is new. -/
def cAux (nbrs : V → List V) : Nat → List V → List V → List V
  | 0, found, _ => found
  | fuel + 1, found, frontier =>
    if frontier = [] then found
    else
      let found' := expandC nbrs found frontier
      cAux nbrs fuel found' (found'.drop found.length)

/-- All vertices reachable from s (given enough fuel). -/
def reachSet (nbrs : V → List V) (fuel : Nat) (s : V) : List V :=
  cAux nbrs fuel [s] [s]

/-- Reflexive-transitive closure of the neighbour relation. -/
inductive NStar (nbrs : V → List V) (s : V) : V → Prop where
  | refl : NStar nbrs s s
  | tail {x y : V} : NStar nbrs s x → y ∈ nbrs x → NStar nbrs s y

/-- Undirected reachability in the base graph. -/
def Graph.Reach (g : Graph) (a b : V) : Prop := NStar g.nbrs a b

/-- Executable connectivity test: every node is reachable from the first
node (true on the empty graph, which the pipeline never reaches). -/
def connCheck (g : Graph) : Bool :=
  match g.nodes with
  | [] => true
  | v :: _ => g.nodes.all (fun x => decide (x ∈ reachSet g.nbrs g.nodes.length v))

/-- Connectivity of a base graph, as the executable check. -/
def Graph.Connected (g : Graph) : Prop := connCheck g = true

/-! ### Component selection (validate_graph) -/

/-- Vertices of the connected component of v, in discovery order. -/
def reachList (g : Graph) (v : V) : List V :=
  reachSet g.nbrs g.nodes.length v

/-- Accumulate components by scanning the node list in order and starting
a new component at each not-yet-covered node. -/
def compsAux (g : Graph) : List V → List (List V) → List (List V)
  | [], acc => acc
  | v :: vs, acc =>
    if acc.any (fun c => decide (v ∈ c)) then compsAux g vs acc
    else compsAux g vs (acc ++ [reachList g v])

/-- Connected components of the graph, first-discovered first. -/
def componentsOf (g : Graph) : List (List V) :=
  compsAux g g.nodes []

/-- Induced subgraph on a vertex list (networkx Graph.subgraph). -/
def inducedSubgraph (g : Graph) (c : List V) : Graph :=
  ⟨g.nodes.filter (fun x => decide (x ∈ c)),
   g.nodeAttrs.filter (fun a => decide (a.1 ∈ c)),
   g.edges.filter (fun e => decide (e.u ∈ c ∧ e.v ∈ c))⟩

/-- Stable insertion for a descending sort on a Nat key: the new element
(originally earlier in the list) is placed before every element whose key
is not larger. -/
def insDesc {α : Type} (key : α → Nat) (a : α) : List α → List α
  | [] => [a]
  | b :: bs => if key b ≤ key a then a :: b :: bs else b :: insDesc key a bs

/-- Stable sort, descending by key — the behaviour of Python's stable
list.sort with reverse=True. -/
def sortByDesc {α : Type} (key : α → Nat) (xs : List α) : List α :=
  xs.foldr (insDesc key) []

/-- validate_graph: list the component subgraphs (networkx 1.x returns
them sorted largest-by-node-count first), re-sort them by
Graph.size() — the EDGE count — descending, warn the caller when there
is more than one, and return the first.  On a graph with no vertices the
list is empty and components[0] raises IndexError. -/
def validate_graph (g : Graph) : Except PErr (Graph × Bool) :=
  match sortByDesc (fun s => s.edges.length)
      ((sortByDesc (fun c => c.length) (componentsOf g)).map (inducedSubgraph g)) with
  | [] => .error .indexError
  | s :: rest => .ok (s, decide (0 < rest.length))

/-! ### Single-source shortest paths (nx.shortest_path, no weight argument)

postman.py calls nx.shortest_path / nx.shortest_path_length WITHOUT a
weight argument, so networkx performs breadth-first search and the
returned paths and lengths are hop-count shortest, ignoring the edge
weights.  The model is the same BFS: a table from target vertex to the
discovery path from the source. -/

/-- Keys (vertices) of a path table. -/
def keysOf (found : List (V × List V)) : List V := found.map Prod.fst

/-- Insert BFS discoveries: each neighbour w not yet in the table is
appended with path ++ [w]. -/
def insP (path : List V) (acc : List (V × List V)) : List V → List (V × List V)
  | [] => acc
  | w :: ws =>
    if w ∈ keysOf acc then insP path acc ws
    else insP path (acc ++ [(w, path ++ [w])]) ws

/-- Expand one BFS frontier. -/
def expandP (g : Graph) (acc : List (V × List V)) : List (V × List V) → List (V × List V)
  | [] => acc
  | vp :: fr => expandP g (insP vp.2 acc (g.nbrs vp.1)) fr

/-- Fuelled BFS loop. -/
def pAux (g : Graph) : Nat → List (V × List V) → List (V × List V) → List (V × List V)
  | 0, found, _ => found
  | fuel + 1, found, frontier =>
    if frontier = [] then found
    else
      let found' := expandP g found frontier
      pAux g fuel found' (found'.drop found.length)

/-- nx.shortest_path(graph, source=s): BFS path table from s. -/
def shortest_path (g : Graph) (s : V) : List (V × List V) :=
  pAux g g.nodes.length [(s, [s])] [(s, [s])]

/-- Dict lookup paths[v]. -/
def lookupPath (found : List (V × List V)) (x : V) : Option (List V) :=
  (found.find? (fun q => decide (q.1 = x))).map Prod.snd

/-! ### The odd-vertex cost graph (odd_graph) -/

/-- An edge of the odd-vertex graph: the endpoint pair (stored with
u > v), the weight -lengths[v] (the NEGATED HOP COUNT of the BFS path)
and the path attribute paths[v]. -/
structure OEdge where
  u : V
  v : V
  weight : Int
  path : List V
deriving DecidableEq, Repr

structure OGraph where
  edges : List OEdge
deriving DecidableEq, Repr

/-- Vertices of odd degree, in node order. -/
def odd_nodes (g : Graph) : List V :=
  g.nodes.filter (fun n => decide (g.degree n % 2 = 1))

/-- Inner loop of odd_graph for a fixed source u: for each v < u add the
edge with weight -lengths[v] and path paths[v]; a missing dict entry
(unreachable v) raises KeyError. -/
def oddEdgesFor (u : V) (paths : List (V × List V)) : List V → Except PErr (List OEdge)
  | [] => .ok []
  | v :: vs =>
    if u ≤ v then oddEdgesFor u paths vs
    else
      match lookupPath paths v with
      | none => .error .keyError
      | some p =>
        match oddEdgesFor u paths vs with
        | .error e => .error e
        | .ok rest => .ok (⟨u, v, 1 - (p.length : Int), p⟩ :: rest)

/-- Outer loop of odd_graph over the source vertices. -/
def oddEdges (g : Graph) (vs : List V) : List V → Except PErr (List OEdge)
  | [] => .ok []
  | u :: us =>
    match oddEdgesFor u (shortest_path g u) vs with
    | .error e => .error e
    | .ok here =>
      match oddEdges g vs us with
      | .error e => .error e
      | .ok rest => .ok (here ++ rest)

/-- odd_graph: the complete graph on the odd-degree vertices, each edge
weighted with the negated BFS hop count and carrying the BFS path. -/
def odd_graph (g : Graph) : Except PErr OGraph :=
  (oddEdges g (odd_nodes g) (odd_nodes g)).map OGraph.mk

/-! ### Maximum-weight matching (nx.max_weight_matching(odd, True))

Modelled from the spec: the matcher is networkx's blossom algorithm,
whose source is not in the repository; per its contract (spec 4.4) it
returns, of all maximum-cardinality matchings of the odd graph, one of
maximum total weight.  The model realises that contract by exhaustive
enumeration. -/

/-- Two odd-graph edges share an endpoint. -/
def touches (e f : OEdge) : Prop :=
  e.u = f.u ∨ e.u = f.v ∨ e.v = f.u ∨ e.v = f.v

instance (e f : OEdge) : Decidable (touches e f) := by
  unfold touches; infer_instance

/-- Drop the edges sharing an endpoint with e. -/
def dropTouching (e : OEdge) (es : List OEdge) : List OEdge :=
  es.filter (fun f => !(decide (touches e f)))

/-- All matchings of an edge list (fuelled; the fuel never runs out when
it is at least the list length). -/
def allMatchingsF : Nat → List OEdge → List (List OEdge)
  | _, [] => [[]]
  | 0, _ :: _ => [[]]
  | fuel + 1, e :: es =>
    allMatchingsF fuel es ++ (allMatchingsF fuel (dropTouching e es)).map (fun m => e :: m)

/-- All matchings (vertex-disjoint edge subsets) of an edge list, each
a sublist of the list. -/
def allMatchings (es : List OEdge) : List (List OEdge) :=
  allMatchingsF es.length es

/-- Total weight of a matching. -/
def mweight (m : List OEdge) : Int := (m.map OEdge.weight).sum

/-- Strictly better under the (cardinality, weight) lexicographic order
used with maxcardinality=True. -/
def betterB (a b : List OEdge) : Bool :=
  decide (b.length < a.length) ||
    (decide (a.length = b.length) && decide (mweight b < mweight a))

/-- First maximum of the enumeration. -/
def pickBest (ms : List (List OEdge)) : List OEdge :=
  ms.foldl (fun best m => if betterB m best then m else best) []

/-- The matching the script's matcher call returns: a maximum-cardinality
matching of maximum weight on the odd graph. -/
def max_weight_matching (og : OGraph) : List OEdge :=
  pickBest (allMatchings og.edges)

/-! ### The augmented multigraph -/

/-- A multigraph edge (the duplicates added by augmentation carry only a
weight). -/
structure MEdge where
  u : V
  v : V
  weight : Int
deriving DecidableEq, Repr

/-- nx.MultiGraph: node list, node attributes and an edge list that may
hold parallel edges. -/
structure MultiGraph where
  nodes : List V
  nodeAttrs : List (V × String × String)
  edges : List MEdge
deriving DecidableEq, Repr

/-- nx.MultiGraph(graph): copy the base graph into a fresh multigraph. -/
def MultiGraph.ofGraph (g : Graph) : MultiGraph :=
  ⟨g.nodes, g.nodeAttrs, g.edges.map (fun e => ⟨e.u, e.v, e.weight⟩)⟩

/-- Degree in a multigraph edge list. -/
def mdeg (es : List MEdge) (x : V) : Nat :=
  es.countP (fun e => decide (e.u = x ∨ e.v = x))

/-- Neighbours in a multigraph edge list. -/
def mnbrs (es : List MEdge) (x : V) : List V :=
  es.foldr (fun e acc =>
    if e.u = x then e.v :: acc else if e.v = x then e.u :: acc else acc) []

/-- Successive pairs of a list (the pairs() helper of postman.py,
circular=False). -/
def pairsOf {α : Type} : List α → List (α × α)
  | [] => []
  | [_] => []
  | a :: b :: rest => (a, b) :: pairsOf (b :: rest)

/-- graph[p][q]['weight']: weight of the base edge on the unordered pair,
None when the edge is absent (KeyError). -/
def baseWeight (g : Graph) (p q : V) : Option Int :=
  (g.edges.find? (fun e => decide (sameUPair e.u e.v p q))).map Edge.weight

/-- Append one duplicate edge per successive pair of a path, with the
base graph's weight (eulerian_graph.add_edge(p, q, weight=...)). -/
def addPathEdges (g : Graph) (mes : List MEdge) : List (V × V) → Except PErr (List MEdge)
  | [] => .ok mes
  | (p, q) :: prs =>
    match baseWeight g p q with
    | none => .error .keyError
    | some w => addPathEdges g (mes ++ [⟨p, q, w⟩]) prs

/-- Duplicate, matched pair by matched pair, the stored shortest path. -/
def augment (g : Graph) (mes : List MEdge) : List OEdge → Except PErr (List MEdge)
  | [] => .ok mes
  | e :: m =>
    match addPathEdges g mes (pairsOf e.path) with
    | .error e0 => .error e0
    | .ok mes2 => augment g mes2 m

/-- The augmented multigraph built inside chinese_postman_path: the copy
of the base graph plus one duplicate of every edge along each matched
pair's stored path. -/
def cpp_augment (g : Graph) : Except PErr MultiGraph :=
  match odd_graph g with
  | .error e => .error e
  | .ok og =>
    match augment g (MultiGraph.ofGraph g).edges (max_weight_matching og) with
    | .error e => .error e
    | .ok es => .ok { MultiGraph.ofGraph g with edges := es }

/-! ### Eulerian circuit (nx.eulerian_circuit)

Modelled from the spec: networkx's eulerian_circuit is not part of the
repository; spec 4.6 describes it as Hierholzer's algorithm — extend a
trail until stuck, splice in sub-circuits started from tour vertices
with unused edges, until no edges remain — preceded by the library's
is_eulerian test (connected and all degrees even), which raises on a
non-Eulerian input. -/

/-- Remove the first edge on the unordered pair (a,b). -/
def removeME (a b : V) : List MEdge → List MEdge
  | [] => []
  | e :: es => if sameUPair e.u e.v a b then es else e :: removeME a b es

/-- First remaining neighbour of c, in edge-list order. -/
def firstNbrME (es : List MEdge) (c : V) : Option V :=
  match es.find? (fun e => decide (e.u = c ∨ e.v = c)) with
  | none => none
  | some e => some (if e.u = c then e.v else e.u)

/-- Walk from c along remaining edges, removing each used edge, until
stuck; returns the trail and the remaining edges. -/
def walkAux : Nat → List MEdge → V → List V × List MEdge
  | 0, es, c => ([c], es)
  | fuel + 1, es, c =>
    match firstNbrME es c with
    | none => ([c], es)
    | some x =>
      let r := walkAux fuel (removeME c x es) x
      (c :: r.1, r.2)

def walkFrom (es : List MEdge) (c : V) : List V × List MEdge :=
  walkAux es.length es c

/-- Does some remaining edge touch x? -/
def hasEdgeAt (es : List MEdge) (x : V) : Bool :=
  es.any (fun e => decide (e.u = x ∨ e.v = x))

/-- Replace the first occurrence of u in the tour by the (closed) subwalk
sub. -/
def spliceAt (u : V) (sub : List V) : List V → List V
  | [] => []
  | t :: ts => if t = u then sub ++ ts else t :: spliceAt u sub ts

/-- Hierholzer main loop: while some tour vertex has an unused edge,
walk a closed sub-circuit from it and splice it in. -/
def hierAux : Nat → List MEdge → List V → List V × List MEdge
  | 0, es, tour => (tour, es)
  | fuel + 1, es, tour =>
    match tour.find? (fun x => hasEdgeAt es x) with
    | none => (tour, es)
    | some u =>
      let r := walkFrom es u
      hierAux fuel r.2 (spliceAt u r.1 tour)

/-- Executable is_connected for a multigraph; networkx raises on a graph
with no nodes. -/
def mconn (mg : MultiGraph) : Except PErr Bool :=
  match mg.nodes with
  | [] => .error .nxPointless
  | v :: _ =>
    .ok (mg.nodes.all (fun x => decide (x ∈ reachSet (mnbrs mg.edges) mg.nodes.length v)))

/-- nx.eulerian_circuit(G): check is_eulerian, then produce the edge list
of an Eulerian circuit starting at the first node. -/
def eulerian_circuit (mg : MultiGraph) : Except PErr (List (V × V)) :=
  match mconn mg with
  | .error e => .error e
  | .ok conn =>
    if conn && mg.nodes.all (fun x => decide (mdeg mg.edges x % 2 = 0)) then
      match mg.nodes with
      | [] => .error .nxPointless
      | v :: _ => .ok (pairsOf (hierAux mg.edges.length mg.edges [v]).1)
    else .error .notEulerian

/-- chinese_postman_path: augment, extract the Eulerian circuit, and
close the node sequence with circuit[0][0] — which raises IndexError
when the circuit is empty. -/
def chinese_postman_path (g : Graph) : Except PErr (MultiGraph × List V) :=
  match cpp_augment g with
  | .error e => .error e
  | .ok mg =>
    match eulerian_circuit mg with
    | .error e => .error e
    | .ok [] => .error .indexError
    | .ok (c0 :: rest) => .ok (mg, ((c0 :: rest).map Prod.fst) ++ [c0.1])

/-- edge_sum: total weight of a graph's edges. -/
def edge_sum (g : Graph) : Int := (g.edges.map Edge.weight).sum

/-- edge_sum on the augmented multigraph (duplicates counted). -/
def medge_sum (mg : MultiGraph) : Int := (mg.edges.map MEdge.weight).sum

/-! ### The specification's weighted shortest-path distance

These definitions follow the spec's words, not the code: the distance
Dijkstra would compute, i.e. the minimum, over paths between two
vertices, of the sum of edge weights.  They exist to state how the code
diverges from the spec. -/

/-- Modelled from the spec: all simple paths from c to b (c already
recorded in visited), by exhaustive search. -/
def specPathsAux (g : Graph) : Nat → V → V → List V → List (List V)
  | 0, _, _, _ => []
  | fuel + 1, c, b, visited =>
    (if c = b then [[c]] else []) ++
      ((g.nbrs c).filter (fun w => decide (w ∉ visited))).foldr
        (fun w acc =>
          (specPathsAux g fuel w b (w :: visited)).map (fun p => c :: p) ++ acc) []

/-- Modelled from the spec: the weight of a path, summing base-graph edge
weights along its successive pairs. -/
def specPathWeight (g : Graph) : List V → Option Int
  | [] => some 0
  | [_] => some 0
  | a :: b :: rest =>
    match baseWeight g a b, specPathWeight g (b :: rest) with
    | some w, some rw => some (w + rw)
    | _, _ => none

/-- Modelled from the spec: the weighted shortest-path distance between a
and b in the base graph (what nx.shortest_path_length with
weight='weight' — Dijkstra — would return), none when unreachable. -/
def specDistW (g : Graph) (a b : V) : Option Int :=
  ((specPathsAux g (g.nodes.length + 1) a b [a]).filterMap (specPathWeight g)).foldl
    (fun best w =>
      match best with
      | none => some w
      | some b0 => some (min b0 w)) none

/-! ### The mutation-explicit run of chinese_postman_path

The Python function receives the base graph object and builds the
augmented multigraph by copying it (nx.MultiGraph(graph)) and then
calling add_edge on the copy only; the base object is merely read.  This
run threads both objects explicitly and returns the base object's final
state together with the result, so that the frame property is a
statement about the embedding rather than a convention. -/

structure Store where
  base : Graph
  eulerian : MultiGraph
deriving DecidableEq, Repr

/-- One augmentation write: read the weight from the base object, append
a duplicate edge to the eulerian object. -/
def addPathEdgesS (s : Store) : List (V × V) → Store × Option PErr
  | [] => (s, none)
  | (p, q) :: prs =>
    match baseWeight s.base p q with
    | none => (s, some .keyError)
    | some w =>
      addPathEdgesS
        { s with eulerian := { s.eulerian with edges := s.eulerian.edges ++ [⟨p, q, w⟩] } }
        prs

def augmentS (s : Store) : List OEdge → Store × Option PErr
  | [] => (s, none)
  | e :: m =>
    match addPathEdgesS s (pairsOf e.path) with
    | (s', none) => augmentS s' m
    | (s', some err) => (s', some err)

/-- chinese_postman_path with the object states made explicit: returns
the final state of the base graph object alongside the result. -/
def cpp_run (g : Graph) : Graph × Except PErr (MultiGraph × List V) :=
  match odd_graph g with
  | .error e => (g, .error e)
  | .ok og =>
    match augmentS ⟨g, MultiGraph.ofGraph g⟩ (max_weight_matching og) with
    | (s1, some err) => (s1.base, .error err)
    | (s1, none) =>
      match eulerian_circuit s1.eulerian with
      | .error e => (s1.base, .error e)
      | .ok [] => (s1.base, .error .indexError)
      | .ok (c0 :: rest) =>
        (s1.base, .ok (s1.eulerian, ((c0 :: rest).map Prod.fst) ++ [c0.1]))

/-! ### Derived notions used in the statements and proofs -/

instance (g : Graph) : Decidable g.Connected := by
  unfold Graph.Connected; infer_instance

/-- Endpoint list of a matching, in order. -/
def endsOf : List OEdge → List V
  | [] => []
  | e :: m => e.u :: e.v :: endsOf m

/-- A vertex matched by the matching. -/
def coveredBy (m : List OEdge) (x : V) : Prop := x ∈ endsOf m

instance (m : List OEdge) (x : V) : Decidable (coveredBy m x) := by
  unfold coveredBy; infer_instance

/-- Normalised unordered pair. -/
def nPair (a b : V) : V × V := if a ≤ b then (a, b) else (b, a)

/-- The edge multiset of a multigraph edge list, as normalised endpoint
pairs with multiplicity. -/
def edgesMS (es : List MEdge) : Multiset (V × V) :=
  ↑(es.map (fun e => nPair e.u e.v))

/-- The multiset of successive pairs of a vertex sequence, normalised. -/
def pairsMS (l : List V) : Multiset (V × V) :=
  ↑((pairsOf l).map (fun pq => nPair pq.1 pq.2))

/-- Reachability along a multigraph edge list. -/
def MReach (es : List MEdge) (a b : V) : Prop := NStar (mnbrs es) a b

/-! ### Concrete input graphs used by the claims -/

/-- A single edge of weight 5 between vertices 1 and 2. -/
def G1 : Graph := ⟨[1, 2], [], [⟨1, 2, 5, "e1"⟩]⟩

/-- A single edge of weight 0 between vertices 1 and 2. -/
def G0 : Graph := ⟨[1, 2], [], [⟨1, 2, 0, "e0"⟩]⟩

/-- A single vertex, no edges. -/
def G7 : Graph := ⟨[7], [], []⟩

/-- Odd vertices 1,2,3,4; the unique hop-count-minimal pairing
{(1,2),(3,4)} uses the two weight-100 edges, while the pairing
{(1,3),(2,4)} costs 4 in weighted distance. -/
def Gstar : Graph :=
  ⟨[1, 2, 3, 4, 5, 6, 7, 8], [],
   [⟨1, 2, 100, "a"⟩, ⟨3, 4, 100, "b"⟩, ⟨1, 5, 1, "c"⟩, ⟨5, 3, 1, "d"⟩,
    ⟨2, 6, 1, "e"⟩, ⟨6, 4, 1, "f"⟩, ⟨1, 7, 1, "g"⟩, ⟨7, 3, 1, "h"⟩,
    ⟨2, 8, 1, "i"⟩, ⟨8, 4, 1, "j"⟩]⟩

/-- The odd-vertex cost graph the model computes for Gstar. -/
def gstarOdd : List OEdge :=
  [⟨2, 1, -1, [2, 1]⟩, ⟨3, 1, -2, [3, 5, 1]⟩, ⟨3, 2, -3, [3, 4, 6, 2]⟩,
   ⟨4, 1, -3, [4, 3, 5, 1]⟩, ⟨4, 2, -2, [4, 6, 2]⟩, ⟨4, 3, -1, [4, 3]⟩]

/-- The matching the model's matcher picks on Gstar. -/
def gstarMatch : List OEdge := [⟨2, 1, -1, [2, 1]⟩, ⟨4, 3, -1, [4, 3]⟩]

/-- Two components: a path on vertices 1..5 (4 edges) and a K4 on
vertices 6..9 (6 edges). -/
def Gc : Graph :=
  ⟨[1, 2, 3, 4, 5, 6, 7, 8, 9], [],
   [⟨1, 2, 1, "p1"⟩, ⟨2, 3, 1, "p2"⟩, ⟨3, 4, 1, "p3"⟩, ⟨4, 5, 1, "p4"⟩,
    ⟨6, 7, 1, "k1"⟩, ⟨6, 8, 1, "k2"⟩, ⟨6, 9, 1, "k3"⟩, ⟨7, 8, 1, "k4"⟩,
    ⟨7, 9, 1, "k5"⟩, ⟨8, 9, 1, "k6"⟩]⟩

/-! ## Claim results -/

/-- C1: FAILS on the code.  On the single weight-5 edge between the odd
vertices 1 and 2, odd_graph stores the edge with weight -1 — the negated
BFS hop count, because nx.shortest_path/shortest_path_length are called
without a weight argument — while the negated weighted shortest-path
distance (Dijkstra over edge weights) is -5. -/
theorem C1_odd_graph_edge_weight_is_negated_hop_count :
    odd_graph G1 = .ok ⟨[⟨2, 1, -1, [2, 1]⟩]⟩ ∧
    specDistW G1 2 1 = some 5 ∧
    (-1 : Int) ≠ -5 :=
  ⟨rfl, rfl, by decide⟩

/-- C2: FAILS on the code.  On Gstar the matcher — fed the negated hop
counts, see C1 — returns the unique maximum matching {(2,1),(4,3)} (every
other matching of the odd graph is either not perfect or strictly worse
in that order), whose matched pairs have weighted shortest-path distances
100 and 100, while the perfect matching {(3,1),(4,2)} has weighted
distances 2 and 2; the chosen matching therefore does not minimise the
sum of weighted shortest-path distances. -/
theorem C2_matcher_minimizes_hop_count_not_weighted_distance :
    odd_graph Gstar = .ok ⟨gstarOdd⟩ ∧
    max_weight_matching ⟨gstarOdd⟩ = gstarMatch ∧
    (allMatchings gstarOdd).all (fun m =>
      decide (m.length ≤ 1) || betterB gstarMatch m || decide (m = gstarMatch)) = true ∧
    specDistW Gstar 2 1 = some 100 ∧ specDistW Gstar 4 3 = some 100 ∧
    specDistW Gstar 3 1 = some 2 ∧ specDistW Gstar 4 2 = some 2 ∧
    ¬ ((100 : Int) + 100 ≤ 2 + 2) :=
  ⟨rfl, rfl, rfl, rfl, rfl, rfl, rfl, by decide⟩

/-- C5 counterexample: on a single edge of weight 0 the base graph has
two odd-degree vertices, yet the augmented multigraph's total weight
equals the base total weight — "equality iff zero odd-degree vertices"
fails for zero-weight edges. -/
theorem C5_zero_weight_equality_with_odd_vertices :
    cpp_augment G0 = .ok ⟨[1, 2], [], [⟨1, 2, 0⟩, ⟨2, 1, 0⟩]⟩ ∧
    medge_sum ⟨[1, 2], [], [⟨1, 2, 0⟩, ⟨2, 1, 0⟩]⟩ = edge_sum G0 ∧
    odd_nodes G0 = [1, 2] ∧ ([1, 2] : List V) ≠ [] :=
  ⟨rfl, rfl, rfl, by decide⟩

/-- C6 counterexample: Gc has a 5-vertex/4-edge component discovered
first and a 4-vertex/6-edge component; validate_graph sorts by
Graph.size(), the EDGE count, and returns the 4-vertex component, not
the component with the greatest number of vertices. -/
theorem C6_selects_most_edges_component :
    componentsOf Gc = [[1, 2, 3, 4, 5], [6, 7, 8, 9]] ∧
    validate_graph Gc = .ok (inducedSubgraph Gc [6, 7, 8, 9], true) ∧
    (inducedSubgraph Gc [6, 7, 8, 9]).nodes = [6, 7, 8, 9] ∧
    (inducedSubgraph Gc [1, 2, 3, 4, 5]).nodes = [1, 2, 3, 4, 5] ∧
    (inducedSubgraph Gc [6, 7, 8, 9]).nodes.length <
      (inducedSubgraph Gc [1, 2, 3, 4, 5]).nodes.length :=
  ⟨rfl, rfl, rfl, rfl, by decide⟩

/-- C7 counterexample: on the graph with no vertices the component list
is empty and components[0] raises a plain IndexError; no EmptyGraphError
class exists anywhere in the program. -/
theorem C7_empty_graph_failure_is_index_error :
    validate_graph ⟨[], [], []⟩ = .error .indexError ∧
    PErr.indexError ≠ PErr.emptyGraphError :=
  ⟨rfl, by decide⟩

/-- C8 counterexample: a row with equal endpoints AND negative weight is
inserted without any error — the import performs no validation, so no
InvalidEdgeError is raised for self-loops or negative weights. -/
theorem C8_negative_selfloop_edge_inserted :
    import_csv_graph [["1", "1", "-5", "e1", "a", "b", "c", "d"]] =
      .ok ⟨[1], [(1, "c", "d")], [⟨1, 1, -5, "e1"⟩]⟩ ∧
    (⟨1, 1, -5, "e1"⟩ : Edge) ∈ (Graph.mk [1] [(1, "c", "d")] [⟨1, 1, -5, "e1"⟩]).edges :=
  ⟨rfl, by decide⟩

/-- C10: a single isolated vertex passes component selection, the
augmented multigraph is the unchanged copy, the extracted Eulerian
circuit is the empty list, and closing the node sequence with
circuit[0][0] raises IndexError — an error outside the spec's error
taxonomy. -/
theorem C10_single_vertex_empty_circuit_index_error :
    validate_graph G7 = .ok (G7, false) ∧
    cpp_augment G7 = .ok (MultiGraph.ofGraph G7) ∧
    eulerian_circuit (MultiGraph.ofGraph G7) = .ok [] ∧
    chinese_postman_path G7 = .error .indexError ∧
    PErr.indexError ∉ [PErr.invalidEdgeError, PErr.emptyGraphError,
      PErr.noPerfectMatchingError, PErr.notEulerian, PErr.disconnectedGraphError] :=
  ⟨rfl, rfl, rfl, rfl, by decide⟩

/-! ### Stable descending sort: basic lemmas -/

theorem insDesc_length {α : Type} (key : α → Nat) (a : α) (l : List α) :
    (insDesc key a l).length = l.length + 1 := by
  induction l with
  | nil => rfl
  | cons b bs ih =>
    unfold insDesc
    split
    · simp
    · simp [ih]

theorem sortByDesc_length {α : Type} (key : α → Nat) (xs : List α) :
    (sortByDesc key xs).length = xs.length := by
  induction xs with
  | nil => rfl
  | cons x xs ih => simp [sortByDesc, List.foldr] at ih ⊢; rw [insDesc_length, ih]

theorem insDesc_mem {α : Type} (key : α → Nat) (a x : α) (l : List α) :
    x ∈ insDesc key a l ↔ x = a ∨ x ∈ l := by
  induction l with
  | nil => simp [insDesc]
  | cons b bs ih =>
    unfold insDesc
    split
    · simp
    · simp [ih]; tauto

theorem sortByDesc_mem {α : Type} (key : α → Nat) (x : α) (xs : List α) :
    x ∈ sortByDesc key xs ↔ x ∈ xs := by
  induction xs with
  | nil => simp [sortByDesc]
  | cons y ys ih =>
    simp only [sortByDesc, List.foldr] at ih ⊢
    rw [insDesc_mem, ih]
    simp

theorem insDesc_pairwise {α : Type} (key : α → Nat) (a : α) (l : List α)
    (h : l.Pairwise (fun p q => key q ≤ key p)) :
    (insDesc key a l).Pairwise (fun p q => key q ≤ key p) := by
  induction l with
  | nil => simp [insDesc]
  | cons b bs ih =>
    unfold insDesc
    rcases List.pairwise_cons.mp h with ⟨hb, hbs⟩
    split
    · rename_i hle
      refine List.pairwise_cons.mpr ⟨?_, h⟩
      intro q hq
      rcases List.mem_cons.mp hq with rfl | hq
      · exact hle
      · exact le_trans (hb _ hq) hle
    · rename_i hgt
      refine List.pairwise_cons.mpr ⟨?_, ih hbs⟩
      intro q hq
      rcases (insDesc_mem key a q bs).mp hq with rfl | hq
      · omega
      · exact hb _ hq

theorem sortByDesc_pairwise {α : Type} (key : α → Nat) (xs : List α) :
    (sortByDesc key xs).Pairwise (fun p q => key q ≤ key p) := by
  induction xs with
  | nil => simp [sortByDesc]
  | cons x xs ih => exact insDesc_pairwise key x _ ih

/-- The head of the descending sort has a maximal key. -/
theorem sortByDesc_head_max {α : Type} (key : α → Nat) (xs : List α)
    (s : α) (rest : List α) (hs : sortByDesc key xs = s :: rest) :
    ∀ x ∈ xs, key x ≤ key s := by
  intro x hx
  have hx' : x ∈ sortByDesc key xs := (sortByDesc_mem key x xs).mpr hx
  rw [hs] at hx'
  rcases List.mem_cons.mp hx' with rfl | hx'
  · exact le_refl _
  · have := sortByDesc_pairwise key xs
    rw [hs] at this
    exact (List.pairwise_cons.mp this).1 x hx'

/-! ### Component accumulation: basic lemmas -/

theorem compsAux_length_le (g : Graph) (vs : List V) (acc : List (List V)) :
    acc.length ≤ (compsAux g vs acc).length := by
  induction vs generalizing acc with
  | nil => simp [compsAux]
  | cons v vs ih =>
    unfold compsAux
    split
    · exact ih acc
    · calc acc.length ≤ (acc ++ [reachList g v]).length := by simp
        _ ≤ _ := ih _

theorem componentsOf_ne_nil (g : Graph) (h : g.nodes ≠ []) :
    componentsOf g ≠ [] := by
  unfold componentsOf
  cases hn : g.nodes with
  | nil => exact absurd hn h
  | cons v vs =>
    have h1 : (1 : Nat) ≤ (compsAux g vs [reachList g v]).length :=
      le_trans (by simp) (compsAux_length_le g vs [reachList g v])
    intro hcontra
    rw [show compsAux g (v :: vs) [] = compsAux g vs [reachList g v] by
      simp [compsAux]] at hcontra
    rw [hcontra] at h1
    simp at h1

/-- C7 amended: the component selector fails — with a plain IndexError
rather than a dedicated EmptyGraphError — exactly when the input graph
has zero vertices; for every graph with at least one vertex it returns
normally (multi-component input only sets the warning flag). -/
theorem C7_amended_fails_exactly_on_empty (g : Graph) :
    (g.nodes = [] → validate_graph g = .error .indexError) ∧
    (g.nodes ≠ [] → ∃ s warned, validate_graph g = .ok (s, warned)) := by
  constructor
  · intro h
    unfold validate_graph componentsOf
    rw [h]
    rfl
  · intro h
    have hcomps := componentsOf_ne_nil g h
    have hlen : (sortByDesc (fun s => s.edges.length)
        ((sortByDesc (fun c => c.length) (componentsOf g)).map (inducedSubgraph g))).length =
        (componentsOf g).length := by
      rw [sortByDesc_length, List.length_map, sortByDesc_length]
    cases hs : sortByDesc (fun s => s.edges.length)
        ((sortByDesc (fun c => c.length) (componentsOf g)).map (inducedSubgraph g)) with
    | nil =>
      exfalso
      rw [hs] at hlen
      exact hcomps (List.length_eq_zero.mp hlen.symm)
    | cons s rest =>
      refine ⟨s, decide (0 < rest.length), ?_⟩
      unfold validate_graph
      rw [hs]

/-- C6 amended: for every graph with at least one vertex, validate_graph
returns the induced subgraph of one of the connected components, and that
component has the greatest number of EDGES among all components (the
tie-break among equal edge counts is implementation-defined). -/
theorem C6_amended_largest_by_edges (g : Graph) (h : g.nodes ≠ []) :
    ∃ c warned, c ∈ componentsOf g ∧
      validate_graph g = .ok (inducedSubgraph g c, warned) ∧
      ∀ d ∈ componentsOf g,
        (inducedSubgraph g d).edges.length ≤ (inducedSubgraph g c).edges.length := by
  have hcomps := componentsOf_ne_nil g h
  have hlen : (sortByDesc (fun s => s.edges.length)
      ((sortByDesc (fun c => c.length) (componentsOf g)).map (inducedSubgraph g))).length =
      (componentsOf g).length := by
    rw [sortByDesc_length, List.length_map, sortByDesc_length]
  cases hs : sortByDesc (fun s => s.edges.length)
      ((sortByDesc (fun c => c.length) (componentsOf g)).map (inducedSubgraph g)) with
  | nil =>
    exfalso
    rw [hs] at hlen
    exact hcomps (List.length_eq_zero.mp hlen.symm)
  | cons s rest =>
    have hmem : s ∈ (sortByDesc (fun c => c.length) (componentsOf g)).map (inducedSubgraph g) := by
      have : s ∈ sortByDesc (fun s => s.edges.length)
          ((sortByDesc (fun c => c.length) (componentsOf g)).map (inducedSubgraph g)) := by
        rw [hs]; exact List.mem_cons_self s rest
      rwa [sortByDesc_mem] at this
    rcases List.mem_map.mp hmem with ⟨c, hcmem, hsc⟩
    rw [sortByDesc_mem] at hcmem
    refine ⟨c, decide (0 < rest.length), hcmem, ?_, ?_⟩
    · unfold validate_graph
      rw [hs, hsc]
    · intro d hd
      have hdmem : inducedSubgraph g d ∈
          (sortByDesc (fun c => c.length) (componentsOf g)).map (inducedSubgraph g) :=
        List.mem_map_of_mem _ (by rw [sortByDesc_mem]; exact hd)
      have := sortByDesc_head_max (fun s => s.edges.length) _ s rest hs _ hdmem
      rw [hsc]
      exact this

/-- C6 amended, witness: on Gc the returned component is among the
components and has the most edges. -/
theorem C6_amended_witness :
    Gc.nodes ≠ [] ∧
    ∃ c warned, c ∈ componentsOf Gc ∧
      validate_graph Gc = .ok (inducedSubgraph Gc c, warned) ∧
      ∀ d ∈ componentsOf Gc,
        (inducedSubgraph Gc d).edges.length ≤ (inducedSubgraph Gc c).edges.length :=
  ⟨by decide, C6_amended_largest_by_edges Gc (by decide)⟩

/-- C7 amended, witness: the empty graph fails with IndexError and the
one-vertex graph G7 returns normally. -/
theorem C7_amended_witness :
    validate_graph ⟨[], [], []⟩ = .error .indexError ∧
    ∃ s warned, validate_graph G7 = .ok (s, warned) :=
  ⟨(C7_amended_fails_exactly_on_empty ⟨[], [], []⟩).1 rfl,
   (C7_amended_fails_exactly_on_empty G7).2 (by decide)⟩

/-- C8 amended: the import performs no validation whatsoever — every row
whose first field is all digits and whose first three fields parse as
integers has its edge inserted, whatever the sign of the weight and even
when the endpoints coincide, creating endpoint vertices when absent; no
InvalidEdgeError is ever raised. -/
theorem C8_amended_no_validation_on_insert (su sv sw id lon1 lat1 lon2 lat2 : String)
    (nu nv w : Int) (h1 : pyIsDigit su = true) (h2 : pyInt su = some nu)
    (h3 : pyInt sv = some nv) (h4 : pyInt sw = some w) :
    ∃ g : Graph, import_csv_graph [[su, sv, sw, id, lon1, lat1, lon2, lat2]] = .ok g ∧
      (⟨nu, nv, w, id⟩ : Edge) ∈ g.edges ∧ nu ∈ g.nodes ∧ nv ∈ g.nodes := by
  have hrow : processRow ⟨[], [], []⟩ [su, sv, sw, id, lon1, lat1, lon2, lat2] =
      .ok ((((Graph.mk [] [] []).add_edge nu nv w id).setAttrs nu lon1 lat1).setAttrs
        nv lon2 lat2) := by
    simp [processRow, h1, h2, h3, h4]
  refine ⟨(((Graph.mk [] [] []).add_edge nu nv w id).setAttrs nu lon1 lat1).setAttrs
    nv lon2 lat2, ?_, ?_, ?_, ?_⟩
  · show importRows ⟨[], [], []⟩ [[su, sv, sw, id, lon1, lat1, lon2, lat2]] = _
    simp [importRows, hrow]
  · simp only [Graph.setAttrs, Graph.add_edge, Graph.add_node]
    repeat' split
    all_goals simp_all [updEdge]
  · simp only [Graph.setAttrs, Graph.add_edge, Graph.add_node]
    repeat' split
    all_goals simp_all
  · simp only [Graph.setAttrs, Graph.add_edge, Graph.add_node]
    repeat' split
    all_goals simp_all

/-- C8 amended, witness: the self-loop row of weight -5 is inserted. -/
theorem C8_amended_witness :
    ∃ g : Graph, import_csv_graph [["1", "1", "-5", "e1", "a", "b", "c", "d"]] = .ok g ∧
      (⟨1, 1, -5, "e1"⟩ : Edge) ∈ g.edges ∧ (1 : V) ∈ g.nodes ∧ (1 : V) ∈ g.nodes :=
  C8_amended_no_validation_on_insert "1" "1" "-5" "e1" "a" "b" "c" "d" 1 1 (-5)
    (by rfl) (by rfl) (by rfl) (by rfl)

/-! ### The frame property of chinese_postman_path -/

theorem addPathEdgesS_base (prs : List (V × V)) (s : Store) :
    (addPathEdgesS s prs).1.base = s.base := by
  induction prs generalizing s with
  | nil => rfl
  | cons pq prs ih =>
    obtain ⟨p, q⟩ := pq
    unfold addPathEdgesS
    cases hbw : baseWeight s.base p q with
    | none => rfl
    | some w => exact ih _

theorem augmentS_base (m : List OEdge) (s : Store) :
    (augmentS s m).1.base = s.base := by
  induction m generalizing s with
  | nil => rfl
  | cons e m ih =>
    unfold augmentS
    cases hs : addPathEdgesS s (pairsOf e.path) with
    | mk s' err =>
      have hb : s'.base = s.base := by
        have := addPathEdgesS_base (pairsOf e.path) s
        rw [hs] at this
        exact this
      cases err with
      | none => rw [ih s', hb]
      | some e0 => exact hb

theorem addPathEdgesS_ok (prs : List (V × V)) (s : Store) (es : List MEdge)
    (h : addPathEdges s.base s.eulerian.edges prs = .ok es) :
    addPathEdgesS s prs =
      (⟨s.base, { s.eulerian with edges := es }⟩, none) := by
  induction prs generalizing s with
  | nil =>
    simp [addPathEdges] at h
    simp [addPathEdgesS, ← h]
  | cons pq prs ih =>
    obtain ⟨p, q⟩ := pq
    unfold addPathEdges at h
    unfold addPathEdgesS
    cases hbw : baseWeight s.base p q with
    | none => rw [hbw] at h; exact absurd h (by simp)
    | some w =>
      rw [hbw] at h
      exact ih ⟨s.base, { s.eulerian with edges := s.eulerian.edges ++ [⟨p, q, w⟩] }⟩ h

theorem addPathEdgesS_err (prs : List (V × V)) (s : Store) (e0 : PErr)
    (h : addPathEdges s.base s.eulerian.edges prs = .error e0) :
    (addPathEdgesS s prs).2 = some e0 := by
  induction prs generalizing s with
  | nil => simp [addPathEdges] at h
  | cons pq prs ih =>
    obtain ⟨p, q⟩ := pq
    unfold addPathEdges at h
    unfold addPathEdgesS
    cases hbw : baseWeight s.base p q with
    | none =>
      rw [hbw] at h
      simp at h
      simp [h]
    | some w =>
      rw [hbw] at h
      exact ih ⟨s.base, { s.eulerian with edges := s.eulerian.edges ++ [⟨p, q, w⟩] }⟩ h

theorem augmentS_ok (m : List OEdge) (s : Store) (es : List MEdge)
    (h : augment s.base s.eulerian.edges m = .ok es) :
    augmentS s m = (⟨s.base, { s.eulerian with edges := es }⟩, none) := by
  induction m generalizing s with
  | nil =>
    simp [augment] at h
    simp [augmentS, ← h]
  | cons e m ih =>
    unfold augment at h
    unfold augmentS
    cases hap : addPathEdges s.base s.eulerian.edges (pairsOf e.path) with
    | error e1 => rw [hap] at h; exact absurd h (by simp [Except.bind])
    | ok mes' =>
      rw [hap] at h
      rw [addPathEdgesS_ok (pairsOf e.path) s mes' hap]
      exact ih ⟨s.base, { s.eulerian with edges := mes' }⟩ (by simpa [Except.bind] using h)

theorem augmentS_err (m : List OEdge) (s : Store) (e0 : PErr)
    (h : augment s.base s.eulerian.edges m = .error e0) :
    (augmentS s m).2 = some e0 := by
  induction m generalizing s with
  | nil => simp [augment] at h
  | cons e m ih =>
    unfold augment at h
    unfold augmentS
    cases hap : addPathEdges s.base s.eulerian.edges (pairsOf e.path) with
    | error e1 =>
      rw [hap] at h
      simp at h
      have h2 := addPathEdgesS_err (pairsOf e.path) s e1 hap
      cases hs : addPathEdgesS s (pairsOf e.path) with
      | mk s2 err =>
        rw [hs] at h2
        simp only at h2
        subst h2
        simp [h]
    | ok mes' =>
      rw [hap] at h
      rw [addPathEdgesS_ok (pairsOf e.path) s mes' hap]
      exact ih ⟨s.base, { s.eulerian with edges := mes' }⟩ (by simpa [Except.bind] using h)

/-! ### Soundness and completeness of the reachability closure -/

theorem insN_append (acc ws : List V) : ∃ new, insN acc ws = acc ++ new := by
  induction ws generalizing acc with
  | nil => exact ⟨[], by simp [insN]⟩
  | cons w ws ih =>
    unfold insN
    split
    · exact ih acc
    · rcases ih (acc ++ [w]) with ⟨new, hnew⟩
      exact ⟨w :: new, by simp [hnew]⟩

theorem insN_subset (acc ws : List V) : acc ⊆ insN acc ws := by
  rcases insN_append acc ws with ⟨new, h⟩
  rw [h]
  exact List.subset_append_left _ _

theorem insN_mem (acc ws : List V) : ∀ w ∈ ws, w ∈ insN acc ws := by
  induction ws generalizing acc with
  | nil => simp
  | cons w ws ih =>
    intro x hx
    rcases List.mem_cons.mp hx with rfl | hx
    · unfold insN
      split
      · exact insN_subset acc ws (by assumption)
      · exact insN_subset (acc ++ [x]) ws (by simp)
    · unfold insN
      split
      · exact ih acc x hx
      · exact ih (acc ++ [w]) x hx

theorem insN_mem_src (acc ws : List V) : ∀ x ∈ insN acc ws, x ∈ acc ∨ x ∈ ws := by
  induction ws generalizing acc with
  | nil => intro x hx; exact Or.inl (by simpa [insN] using hx)
  | cons w ws ih =>
    intro x hx
    unfold insN at hx
    split at hx
    · rcases ih acc x hx with h | h
      · exact Or.inl h
      · exact Or.inr (List.mem_cons_of_mem _ h)
    · rcases ih (acc ++ [w]) x hx with h | h
      · rcases List.mem_append.mp h with h | h
        · exact Or.inl h
        · simp at h
          exact Or.inr (by simp [h])
      · exact Or.inr (List.mem_cons_of_mem _ h)

theorem insN_nodup (acc ws : List V) (h : acc.Nodup) : (insN acc ws).Nodup := by
  induction ws generalizing acc with
  | nil => simpa [insN] using h
  | cons w ws ih =>
    unfold insN
    split
    · exact ih acc h
    · exact ih (acc ++ [w]) (by simp [List.nodup_append, h]; intro hw; simp_all)

theorem expandC_append (nbrs : V → List V) (acc fr : List V) :
    ∃ new, expandC nbrs acc fr = acc ++ new := by
  induction fr generalizing acc with
  | nil => exact ⟨[], by simp [expandC]⟩
  | cons x fr ih =>
    unfold expandC
    rcases insN_append acc (nbrs x) with ⟨n1, h1⟩
    rcases ih (insN acc (nbrs x)) with ⟨n2, h2⟩
    exact ⟨n1 ++ n2, by rw [h2, h1, List.append_assoc]⟩

theorem expandC_subset (nbrs : V → List V) (acc fr : List V) :
    acc ⊆ expandC nbrs acc fr := by
  rcases expandC_append nbrs acc fr with ⟨new, h⟩
  rw [h]
  exact List.subset_append_left _ _

theorem expandC_mem_nbrs (nbrs : V → List V) (acc fr : List V) :
    ∀ x ∈ fr, ∀ w ∈ nbrs x, w ∈ expandC nbrs acc fr := by
  induction fr generalizing acc with
  | nil => simp
  | cons y fr ih =>
    intro x hx w hw
    rcases List.mem_cons.mp hx with rfl | hx
    · unfold expandC
      exact expandC_subset nbrs _ fr (insN_mem acc (nbrs x) w hw)
    · unfold expandC
      exact ih _ x hx w hw

theorem expandC_mem_src (nbrs : V → List V) (acc fr : List V) :
    ∀ y ∈ expandC nbrs acc fr, y ∈ acc ∨ ∃ x ∈ fr, y ∈ nbrs x := by
  induction fr generalizing acc with
  | nil => intro y hy; exact Or.inl (by simpa [expandC] using hy)
  | cons x fr ih =>
    intro y hy
    unfold expandC at hy
    rcases ih (insN acc (nbrs x)) y hy with h | ⟨x2, hx2, hy2⟩
    · rcases insN_mem_src acc (nbrs x) y h with h | h
      · exact Or.inl h
      · exact Or.inr ⟨x, List.mem_cons_self _ _, h⟩
    · exact Or.inr ⟨x2, List.mem_cons_of_mem _ hx2, hy2⟩

theorem expandC_nodup (nbrs : V → List V) (acc fr : List V) (h : acc.Nodup) :
    (expandC nbrs acc fr).Nodup := by
  induction fr generalizing acc with
  | nil => simpa [expandC] using h
  | cons x fr ih => exact ih _ (insN_nodup acc (nbrs x) h)

theorem cAux_nil_frontier (nbrs : V → List V) (fuel : Nat) (found : List V) :
    cAux nbrs fuel found [] = found := by
  cases fuel <;> simp [cAux]

theorem cAux_spec (nbrs : V → List V) (U : List V)
    (hU : ∀ x, ∀ w ∈ nbrs x, w ∈ U) :
    ∀ (fuel : Nat) (found frontier : List V), found.Nodup → found ⊆ U →
    (∃ done, found = done ++ frontier ∧ ∀ x ∈ done, ∀ w ∈ nbrs x, w ∈ found) →
    U.length + 1 ≤ fuel + found.length →
    (∀ x ∈ found, x ∈ cAux nbrs fuel found frontier) ∧
    (∀ x ∈ cAux nbrs fuel found frontier, ∀ w ∈ nbrs x, w ∈ cAux nbrs fuel found frontier) := by
  intro fuel
  induction fuel with
  | zero =>
    intro found frontier hnd hsub hdinv hfuel
    exfalso
    have := (List.subperm_of_subset hnd hsub).length_le
    omega
  | succ fuel ih =>
    intro found frontier hnd hsub hdinv hfuel
    by_cases hf : frontier = []
    · subst hf
      rcases hdinv with ⟨done, hdone, hclosed⟩
      simp at hdone
      subst hdone
      constructor
      · intro x hx
        rw [cAux]
        simp [hx]
      · intro x hx w hw
        rw [cAux] at hx ⊢
        simp at hx ⊢
        exact hclosed x hx w hw
    · have hstep : cAux nbrs (fuel + 1) found frontier =
          cAux nbrs fuel (expandC nbrs found frontier)
            ((expandC nbrs found frontier).drop found.length) := by
        rw [cAux]
        simp [hf]
      rcases expandC_append nbrs found frontier with ⟨new, hnew⟩
      have hdrop : (expandC nbrs found frontier).drop found.length = new := by
        rw [hnew, List.drop_left]
      have hsub' : expandC nbrs found frontier ⊆ U := by
        intro y hy
        rcases expandC_mem_src nbrs found frontier y hy with h | ⟨x, _, hy2⟩
        · exact hsub h
        · exact hU x y hy2
      have hnd' : (expandC nbrs found frontier).Nodup := expandC_nodup nbrs found frontier hnd
      have hdinv' : ∃ done, expandC nbrs found frontier = done ++ new ∧
          ∀ x ∈ done, ∀ w ∈ nbrs x, w ∈ expandC nbrs found frontier := by
        refine ⟨found, hnew, ?_⟩
        intro x hx w hw
        rcases hdinv with ⟨done, hdone, hclosed⟩
        rw [hdone] at hx
        rcases List.mem_append.mp hx with hx | hx
        · have : w ∈ found := by
            rw [hdone]
            rw [hdone] at hclosed
            exact hclosed x hx w hw
          exact expandC_subset nbrs found frontier this
        · exact expandC_mem_nbrs nbrs found frontier x hx w hw
      by_cases hn : new = []
      · subst hn
        simp at hnew
        rw [hstep, hdrop, cAux_nil_frontier]
        constructor
        · intro x hx
          rw [← hnew] at hx
          exact hx
        · intro x hx w hw
          rcases hdinv' with ⟨done, hdone, hclosed⟩
          simp at hdone
          exact hclosed x (hdone ▸ hx) w hw
      · have hlen : found.length + 1 ≤ (expandC nbrs found frontier).length := by
          rw [hnew]
          simp
          cases new with
          | nil => exact absurd rfl hn
          | cons a l => simp
        have := ih (expandC nbrs found frontier) new hnd' hsub' (by rw [← hdrop] at hdinv' ⊢; exact hdinv') (by omega)
        rw [hstep, hdrop]
        constructor
        · intro x hx
          exact this.1 x (expandC_subset nbrs found frontier hx)
        · exact this.2

theorem reachSet_sound (nbrs : V → List V) (s : V) :
    ∀ (fuel : Nat) (found frontier : List V),
    (∀ x ∈ found, NStar nbrs s x) → frontier ⊆ found →
    ∀ x ∈ cAux nbrs fuel found frontier, NStar nbrs s x := by
  intro fuel
  induction fuel with
  | zero => intro found frontier hfound _ x hx; exact hfound x hx
  | succ fuel ih =>
    intro found frontier hfound hfr x hx
    by_cases hf : frontier = []
    · subst hf
      rw [cAux] at hx
      simp at hx
      exact hfound x hx
    · rw [cAux] at hx
      simp [hf] at hx
      rcases expandC_append nbrs found frontier with ⟨new, hnew⟩
      have hfound' : ∀ y ∈ expandC nbrs found frontier, NStar nbrs s y := by
        intro y hy
        rcases expandC_mem_src nbrs found frontier y hy with h | ⟨z, hz, hy2⟩
        · exact hfound y h
        · exact NStar.tail (hfound z (hfr hz)) hy2
      refine ih (expandC nbrs found frontier) _ hfound' ?_ x hx
      intro y hy
      exact List.drop_subset _ _ hy

theorem NStar.trans_lemma (nbrs : V → List V) (a b c : V)
    (h1 : NStar nbrs a b) (h2 : NStar nbrs b c) : NStar nbrs a c := by
  induction h2 with
  | refl => exact h1
  | tail _ hmem ih => exact NStar.tail ih hmem

theorem NStar.symm_lemma (nbrs : V → List V)
    (hsym : ∀ x y, y ∈ nbrs x → x ∈ nbrs y) (a b : V)
    (h : NStar nbrs a b) : NStar nbrs b a := by
  induction h with
  | refl => exact NStar.refl
  | tail _ hmem ih =>
    exact NStar.trans_lemma nbrs _ _ _ (NStar.tail NStar.refl (hsym _ _ hmem)) ih

/-- Membership in the neighbour fold, for base graphs. -/
theorem mem_nbrs_iff (g : Graph) (x w : V) :
    w ∈ g.nbrs x ↔ g.adj x w := by
  unfold Graph.nbrs Graph.adj
  induction g.edges with
  | nil => simp
  | cons e es ih =>
    simp only [List.foldr_cons]
    constructor
    · intro h
      by_cases h1 : e.u = x
      · rw [if_pos h1] at h
        rcases List.mem_cons.mp h with rfl | h
        · exact ⟨e, List.mem_cons_self _ _, Or.inl ⟨h1, rfl⟩⟩
        · rcases ih.mp h with ⟨f, hf, hor⟩
          exact ⟨f, List.mem_cons_of_mem _ hf, hor⟩
      · by_cases h2 : e.v = x
        · rw [if_neg h1, if_pos h2] at h
          rcases List.mem_cons.mp h with rfl | h
          · exact ⟨e, List.mem_cons_self _ _, Or.inr ⟨rfl, h2⟩⟩
          · rcases ih.mp h with ⟨f, hf, hor⟩
            exact ⟨f, List.mem_cons_of_mem _ hf, hor⟩
        · rw [if_neg h1, if_neg h2] at h
          rcases ih.mp h with ⟨f, hf, hor⟩
          exact ⟨f, List.mem_cons_of_mem _ hf, hor⟩
    · rintro ⟨f, hf, hor⟩
      rcases List.mem_cons.mp hf with rfl | hf
      · by_cases h1 : f.u = x
        · rw [if_pos h1]
          rcases hor with ⟨ha, hb⟩ | ⟨ha, hb⟩
          · rw [← hb]
            exact List.mem_cons_self _ _
          · have hvw : f.v = w := by rw [hb, ← h1]; exact ha
            rw [← hvw]
            exact List.mem_cons_self _ _
        · rcases hor with ⟨ha, hb⟩ | ⟨ha, hb⟩
          · exact absurd ha h1
          · rw [if_neg h1, if_pos hb]
            rw [← ha]
            exact List.mem_cons_self _ _
      · have hmem := ih.mpr ⟨f, hf, hor⟩
        split
        · exact List.mem_cons_of_mem _ hmem
        · split
          · exact List.mem_cons_of_mem _ hmem
          · exact hmem

theorem nbrs_symm (g : Graph) (x y : V) (h : y ∈ g.nbrs x) : x ∈ g.nbrs y := by
  rw [mem_nbrs_iff] at h ⊢
  unfold Graph.adj at h ⊢
  rcases h with ⟨e, he, hor⟩
  exact ⟨e, he, by tauto⟩

/-- Connectivity gives reachability between any two nodes. -/
theorem connected_reach (g : Graph) (h : g.Connected) (a b : V)
    (ha : a ∈ g.nodes) (hb : b ∈ g.nodes) : NStar g.nbrs a b := by
  unfold Graph.Connected connCheck at h
  cases hn : g.nodes with
  | nil => rw [hn] at ha; simp at ha
  | cons v rest =>
    rw [hn] at h
    have hall := List.all_eq_true.mp h
    have hsound : ∀ x, x ∈ reachSet g.nbrs (v :: rest).length v → NStar g.nbrs v x := by
      intro x hx
      exact reachSet_sound g.nbrs v (v :: rest).length [v] [v]
        (by intro y hy; simp at hy; subst hy; exact NStar.refl)
        (by simp) x hx
    have hha : NStar g.nbrs v a := by
      have h2 := hall a (by rw [← hn]; exact ha)
      simp only [decide_eq_true_eq] at h2
      exact hsound a h2
    have hhb : NStar g.nbrs v b := by
      have h2 := hall b (by rw [← hn]; exact hb)
      simp only [decide_eq_true_eq] at h2
      exact hsound b h2
    exact NStar.trans_lemma g.nbrs a v b (NStar.symm_lemma g.nbrs (nbrs_symm g) v a hha) hhb

theorem reachSet_complete (nbrs : V → List V) (U : List V)
    (hU : ∀ x, ∀ w ∈ nbrs x, w ∈ U) (s : V) (hsU : s ∈ U) (x : V)
    (h : NStar nbrs s x) : x ∈ reachSet nbrs U.length s := by
  have hspec := cAux_spec nbrs U hU U.length [s] [s] (by simp)
    (by intro y hy; simp at hy; subst hy; exact hsU)
    ⟨[], by simp⟩ (by simp)
  induction h with
  | refl => exact hspec.1 s (by simp)
  | tail _ hmem ih => exact hspec.2 _ ih _ hmem

/-! ### The BFS path table: validity and completeness -/

theorem pairsOf_append_single {α : Type} (l : List α) (w a : α)
    (h : l.getLast? = some a) :
    pairsOf (l ++ [w]) = pairsOf l ++ [(a, w)] := by
  induction l with
  | nil => simp at h
  | cons x l ih =>
    cases l with
    | nil =>
      simp at h
      subst h
      rfl
    | cons y l2 =>
      have h2 : (y :: l2).getLast? = some a := by
        rw [List.getLast?_cons_cons] at h
        exact h
      have := ih h2
      show pairsOf (x :: ((y :: l2) ++ [w])) = _
      rw [show (y :: l2) ++ [w] = y :: (l2 ++ [w]) by rfl]
      unfold pairsOf
      rw [show y :: (l2 ++ [w]) = (y :: l2) ++ [w] by rfl]
      rw [this]
      rfl

/-- Validity of a BFS table: distinct keys, and every entry a nonempty
duplicate-free adjacency chain from the source to its key, with all of
its vertices registered as keys. -/
def goodTable (g : Graph) (s : V) (found : List (V × List V)) : Prop :=
  (keysOf found).Nodup ∧
  ∀ vp ∈ found, vp.2 ≠ [] ∧ vp.2.head? = some s ∧ vp.2.getLast? = some vp.1 ∧
    vp.2.Nodup ∧ (∀ pq ∈ pairsOf vp.2, g.adj pq.1 pq.2) ∧
    (∀ x ∈ vp.2, x ∈ keysOf found)

theorem keysOf_append (l1 l2 : List (V × List V)) :
    keysOf (l1 ++ l2) = keysOf l1 ++ keysOf l2 := by
  simp [keysOf]

theorem insP_append (path : List V) (acc : List (V × List V)) (ws : List V) :
    ∃ new, insP path acc ws = acc ++ new := by
  induction ws generalizing acc with
  | nil => exact ⟨[], by simp [insP]⟩
  | cons w ws ih =>
    unfold insP
    split
    · exact ih acc
    · rcases ih (acc ++ [(w, path ++ [w])]) with ⟨new, hnew⟩
      exact ⟨(w, path ++ [w]) :: new, by simp [hnew]⟩

theorem insP_subset (path : List V) (acc : List (V × List V)) (ws : List V) :
    acc ⊆ insP path acc ws := by
  rcases insP_append path acc ws with ⟨new, h⟩
  rw [h]
  exact List.subset_append_left _ _

theorem insP_keys_mono (path : List V) (acc : List (V × List V)) (ws : List V) :
    keysOf acc ⊆ keysOf (insP path acc ws) := by
  rcases insP_append path acc ws with ⟨new, h⟩
  rw [h, keysOf_append]
  exact List.subset_append_left _ _

theorem insP_mem_keys (path : List V) (acc : List (V × List V)) (ws : List V) :
    ∀ w ∈ ws, w ∈ keysOf (insP path acc ws) := by
  induction ws generalizing acc with
  | nil => simp
  | cons w ws ih =>
    intro x hx
    rcases List.mem_cons.mp hx with rfl | hx
    · unfold insP
      split
      · exact insP_keys_mono path acc ws (by assumption)
      · refine insP_keys_mono path _ ws ?_
        rw [keysOf_append]
        simp [keysOf]
    · unfold insP
      split
      · exact ih acc x hx
      · exact ih _ x hx

theorem insP_good (g : Graph) (s v0 : V) (path : List V) (acc : List (V × List V))
    (ws : List V) (hg : goodTable g s acc) (hmem : (v0, path) ∈ acc)
    (hws : ∀ w ∈ ws, w ∈ g.nbrs v0) :
    goodTable g s (insP path acc ws) := by
  induction ws generalizing acc with
  | nil => simpa [insP] using hg
  | cons w ws ih =>
    unfold insP
    split
    · exact ih acc hg hmem (fun x hx => hws x (List.mem_cons_of_mem _ hx))
    · rename_i hwk
      refine ih (acc ++ [(w, path ++ [w])]) ?_ (List.mem_append_left _ hmem)
        (fun x hx => hws x (List.mem_cons_of_mem _ hx))
      obtain ⟨hnd, hent⟩ := hg
      obtain ⟨hpne, hphead, hplast, hpnd, hpchain, hpkeys⟩ := hent (v0, path) hmem
      have hkeys2 : keysOf (acc ++ [(w, path ++ [w])]) = keysOf acc ++ [w] := by
        rw [keysOf_append]; rfl
      have hwnp : w ∉ path := fun hc => hwk (hpkeys w hc)
      constructor
      · rw [hkeys2]
        simp [List.nodup_append, hnd]
        exact hwk
      · intro vp hvp
        rcases List.mem_append.mp hvp with hvp | hvp
        · obtain ⟨h1, h2, h3, h4, h5, h6⟩ := hent vp hvp
          exact ⟨h1, h2, h3, h4, h5, fun x hx => by
            rw [hkeys2]; exact List.mem_append_left _ (h6 x hx)⟩
        · simp at hvp
          subst hvp
          refine ⟨by simp, ?_, ?_, ?_, ?_, ?_⟩
          · show (path ++ [w]).head? = some s
            rw [List.head?_append_of_ne_nil _ hpne]
            exact hphead
          · show (path ++ [w]).getLast? = some w
            simp
          · show (path ++ [w]).Nodup
            simp [List.nodup_append, hpnd, hwnp]
          · show ∀ pq ∈ pairsOf (path ++ [w]), g.adj pq.1 pq.2
            rw [pairsOf_append_single path w v0 hplast]
            intro pq hpq
            rcases List.mem_append.mp hpq with hpq | hpq
            · exact hpchain pq hpq
            · simp at hpq
              subst hpq
              exact (mem_nbrs_iff g v0 w).mp (hws w (List.mem_cons_self _ _))
          · intro x hx
            rw [hkeys2]
            rcases List.mem_append.mp hx with hx | hx
            · exact List.mem_append_left _ (hpkeys x hx)
            · simp at hx
              subst hx
              simp

theorem expandP_append (g : Graph) (acc fr : List (V × List V)) :
    ∃ new, expandP g acc fr = acc ++ new := by
  induction fr generalizing acc with
  | nil => exact ⟨[], by simp [expandP]⟩
  | cons vp fr ih =>
    unfold expandP
    rcases insP_append vp.2 acc (g.nbrs vp.1) with ⟨n1, h1⟩
    rcases ih (insP vp.2 acc (g.nbrs vp.1)) with ⟨n2, h2⟩
    exact ⟨n1 ++ n2, by rw [h2, h1, List.append_assoc]⟩

theorem expandP_subset (g : Graph) (acc fr : List (V × List V)) :
    acc ⊆ expandP g acc fr := by
  rcases expandP_append g acc fr with ⟨new, h⟩
  rw [h]
  exact List.subset_append_left _ _

theorem expandP_keys_mono (g : Graph) (acc fr : List (V × List V)) :
    keysOf acc ⊆ keysOf (expandP g acc fr) := by
  rcases expandP_append g acc fr with ⟨new, h⟩
  rw [h, keysOf_append]
  exact List.subset_append_left _ _

theorem expandP_mem_keys (g : Graph) (acc fr : List (V × List V)) :
    ∀ vp ∈ fr, ∀ w ∈ g.nbrs vp.1, w ∈ keysOf (expandP g acc fr) := by
  induction fr generalizing acc with
  | nil => simp
  | cons vq fr ih =>
    intro vp hvp w hw
    rcases List.mem_cons.mp hvp with rfl | hvp
    · unfold expandP
      exact expandP_keys_mono g _ fr (insP_mem_keys vp.2 acc (g.nbrs vp.1) w hw)
    · unfold expandP
      exact ih _ vp hvp w hw

theorem expandP_good (g : Graph) (s : V) (acc fr : List (V × List V))
    (hg : goodTable g s acc) (hfr : ∀ vp ∈ fr, vp ∈ acc) :
    goodTable g s (expandP g acc fr) := by
  induction fr generalizing acc with
  | nil => simpa [expandP] using hg
  | cons vp fr ih =>
    unfold expandP
    refine ih _ ?_ ?_
    · exact insP_good g s vp.1 vp.2 acc (g.nbrs vp.1) hg
        (hfr vp (List.mem_cons_self _ _)) (fun w hw => hw)
    · intro vq hvq
      exact insP_subset vp.2 acc (g.nbrs vp.1) (hfr vq (List.mem_cons_of_mem _ hvq))

theorem expandP_keys_src (g : Graph) (acc fr : List (V × List V)) :
    ∀ k ∈ keysOf (expandP g acc fr), k ∈ keysOf acc ∨ ∃ vp ∈ fr, k ∈ g.nbrs vp.1 := by
  induction fr generalizing acc with
  | nil => intro k hk; exact Or.inl (by simpa [expandP] using hk)
  | cons vp fr ih =>
    intro k hk
    unfold expandP at hk
    rcases ih (insP vp.2 acc (g.nbrs vp.1)) k hk with h | ⟨vq, hvq, hk2⟩
    · -- k is a key of the insP-extension
      have : ∀ (path : List V) (acc2 : List (V × List V)) (ws : List V),
          ∀ k2 ∈ keysOf (insP path acc2 ws), k2 ∈ keysOf acc2 ∨ k2 ∈ ws := by
        intro path acc2 ws
        induction ws generalizing acc2 with
        | nil => intro k2 hk2; exact Or.inl (by simpa [insP] using hk2)
        | cons w ws ih2 =>
          intro k2 hk2
          unfold insP at hk2
          split at hk2
          · rcases ih2 acc2 k2 hk2 with h2 | h2
            · exact Or.inl h2
            · exact Or.inr (List.mem_cons_of_mem _ h2)
          · rcases ih2 _ k2 hk2 with h2 | h2
            · rw [keysOf_append] at h2
              rcases List.mem_append.mp h2 with h2 | h2
              · exact Or.inl h2
              · simp [keysOf] at h2
                exact Or.inr (by simp [h2])
            · exact Or.inr (List.mem_cons_of_mem _ h2)
      rcases this vp.2 acc (g.nbrs vp.1) k h with h2 | h2
      · exact Or.inl h2
      · exact Or.inr ⟨vp, List.mem_cons_self _ _, h2⟩
    · exact Or.inr ⟨vq, List.mem_cons_of_mem _ hvq, hk2⟩

theorem pAux_nil_frontier (g : Graph) (fuel : Nat) (found : List (V × List V)) :
    pAux g fuel found [] = found := by
  cases fuel <;> simp [pAux]

theorem pAux_spec (g : Graph) (hU : ∀ x, ∀ w ∈ g.nbrs x, w ∈ g.nodes) (s : V) :
    ∀ (fuel : Nat) (found frontier : List (V × List V)),
    goodTable g s found → keysOf found ⊆ g.nodes →
    (∃ done, found = done ++ frontier ∧ ∀ vp ∈ done, ∀ w ∈ g.nbrs vp.1, w ∈ keysOf found) →
    g.nodes.length + 1 ≤ fuel + found.length →
    (∀ vp ∈ found, vp ∈ pAux g fuel found frontier) ∧
    goodTable g s (pAux g fuel found frontier) ∧
    (∀ vp ∈ pAux g fuel found frontier, ∀ w ∈ g.nbrs vp.1,
      w ∈ keysOf (pAux g fuel found frontier)) := by
  intro fuel
  induction fuel with
  | zero =>
    intro found frontier hg hsub hdinv hfuel
    exfalso
    have h1 : (keysOf found).length = found.length := by simp [keysOf]
    have := (List.subperm_of_subset hg.1 hsub).length_le
    omega
  | succ fuel ih =>
    intro found frontier hg hsub hdinv hfuel
    by_cases hf : frontier = []
    · subst hf
      rcases hdinv with ⟨done, hdone, hclosed⟩
      simp at hdone
      subst hdone
      rw [pAux_nil_frontier]
      exact ⟨fun vp hvp => hvp, hg, hclosed⟩
    · have hstep : pAux g (fuel + 1) found frontier =
          pAux g fuel (expandP g found frontier)
            ((expandP g found frontier).drop found.length) := by
        rw [pAux]
        simp [hf]
      rcases expandP_append g found frontier with ⟨new, hnew⟩
      have hdrop : (expandP g found frontier).drop found.length = new := by
        rw [hnew, List.drop_left]
      have hfrsub : ∀ vp ∈ frontier, vp ∈ found := by
        rcases hdinv with ⟨done, hdone, _⟩
        intro vp hvp
        rw [hdone]
        exact List.mem_append_right _ hvp
      have hg' : goodTable g s (expandP g found frontier) :=
        expandP_good g s found frontier hg hfrsub
      have hsub' : keysOf (expandP g found frontier) ⊆ g.nodes := by
        intro k hk
        rcases expandP_keys_src g found frontier k hk with h | ⟨vp, _, hk2⟩
        · exact hsub h
        · exact hU vp.1 k hk2
      have hdinv' : ∃ done, expandP g found frontier = done ++ new ∧
          ∀ vp ∈ done, ∀ w ∈ g.nbrs vp.1, w ∈ keysOf (expandP g found frontier) := by
        refine ⟨found, hnew, ?_⟩
        intro vp hvp w hw
        rcases hdinv with ⟨done, hdone, hclosed⟩
        rw [hdone] at hvp
        rcases List.mem_append.mp hvp with hvp | hvp
        · have : w ∈ keysOf found := by
            rw [hdone] at hclosed ⊢
            exact hclosed vp hvp w hw
          exact expandP_keys_mono g found frontier this
        · exact expandP_mem_keys g found frontier vp hvp w hw
      by_cases hn : new = []
      · subst hn
        simp at hnew
        rw [hstep, hdrop, pAux_nil_frontier]
        rcases hdinv' with ⟨done, hdone, hclosed⟩
        simp at hdone
        constructor
        · intro vp hvp
          rw [← hnew] at hvp
          exact hvp
        · exact ⟨hg', fun vp hvp => hclosed vp (hdone ▸ hvp)⟩
      · have hlen : found.length + 1 ≤ (expandP g found frontier).length := by
          rw [hnew]
          simp
          cases new with
          | nil => exact absurd rfl hn
          | cons a l => simp
        have hres := ih (expandP g found frontier) new hg' hsub'
          (by rw [← hdrop] at hdinv' ⊢; exact hdinv') (by omega)
        rw [hstep, hdrop]
        refine ⟨?_, hres.2.1, hres.2.2⟩
        intro vp hvp
        exact hres.1 vp (expandP_subset g found frontier hvp)

/-- The nodes universe property holds for well-formed graphs. -/
theorem wf_nbrs_nodes (g : Graph) (hwf : g.WF) :
    ∀ x, ∀ w ∈ g.nbrs x, w ∈ g.nodes := by
  intro x w hw
  rcases (mem_nbrs_iff g x w).mp hw with ⟨e, he, hor⟩
  rcases hwf.2.1 e he with ⟨hu, hv, _⟩
  rcases hor with ⟨_, h2⟩ | ⟨h1, _⟩
  · exact h2 ▸ hv
  · exact h1 ▸ hu

theorem shortest_path_spec (g : Graph) (hwf : g.WF) (s : V) (hs : s ∈ g.nodes) :
    (s, ([s] : List V)) ∈ shortest_path g s ∧
    goodTable g s (shortest_path g s) ∧
    (∀ vp ∈ shortest_path g s, ∀ w ∈ g.nbrs vp.1, w ∈ keysOf (shortest_path g s)) := by
  have hgood0 : goodTable g s [(s, [s])] := by
    constructor
    · simp [keysOf]
    · intro vp hvp
      simp at hvp
      subst hvp
      exact ⟨by simp, rfl, rfl, by simp, by simp [pairsOf], by simp [keysOf]⟩
  have h := pAux_spec g (wf_nbrs_nodes g hwf) s g.nodes.length [(s, [s])] [(s, [s])]
    hgood0 (by intro k hk; simp [keysOf] at hk; subst hk; exact hs)
    ⟨[], by simp⟩ (by simp)
  exact ⟨h.1 (s, [s]) (by simp), h.2.1, h.2.2⟩

/-- When the graph is connected, BFS reaches every node. -/
theorem shortest_path_complete (g : Graph) (hwf : g.WF) (s : V) (hs : s ∈ g.nodes)
    (x : V) (h : NStar g.nbrs s x) : x ∈ keysOf (shortest_path g s) := by
  obtain ⟨hinit, hgood, hclosed⟩ := shortest_path_spec g hwf s hs
  induction h with
  | refl => exact List.mem_map_of_mem Prod.fst hinit
  | tail hst hmem ih =>
    rename_i b c
    have hb := ih
    rcases List.mem_map.mp hb with ⟨vp, hvp, hk⟩
    subst hk
    exact hclosed vp hvp c hmem

theorem lookupPath_mem (found : List (V × List V)) (v : V) (p : List V)
    (h : lookupPath found v = some p) : (v, p) ∈ found := by
  unfold lookupPath at h
  cases hf : found.find? (fun q => decide (q.1 = v)) with
  | none => rw [hf] at h; simp at h
  | some vp =>
    rw [hf] at h
    simp at h
    have hmem := List.mem_of_find?_eq_some hf
    have hpred := List.find?_some hf
    simp at hpred
    have : vp = (v, p) := by
      cases vp with
      | mk a b => simp at hpred h; rw [hpred, h]
    rw [← this]
    exact hmem

theorem lookupPath_found (found : List (V × List V)) (v : V)
    (h : v ∈ keysOf found) : ∃ p, lookupPath found v = some p := by
  unfold lookupPath
  rcases List.mem_map.mp h with ⟨vp, hvp, hk⟩
  cases hf : found.find? (fun q => decide (q.1 = v)) with
  | none =>
    exfalso
    have := List.find?_eq_none.mp hf vp hvp
    simp at this
    exact this hk
  | some vq => exact ⟨vq.2, by simp⟩

/-! ### The handshake lemma: evenly many odd-degree vertices -/

theorem sum_map_add (ns : List V) (f h : V → Nat) :
    (ns.map (fun x => f x + h x)).sum = (ns.map f).sum + (ns.map h).sum := by
  induction ns with
  | nil => rfl
  | cons x ns ih => simp [ih]; omega

theorem sum_map_ite_countP (ns : List V) (p : V → Bool) :
    (ns.map (fun x => if p x then 1 else 0)).sum = ns.countP p := by
  induction ns with
  | nil => rfl
  | cons x ns ih =>
    rw [List.map_cons, List.sum_cons, ih, List.countP_cons]
    by_cases h : p x <;> simp [h] <;> omega

theorem countP_single_of_nodup (ns : List V) (a : V) (hnd : ns.Nodup) (ha : a ∈ ns) :
    ns.countP (fun x => decide (a = x)) = 1 := by
  induction ns with
  | nil => simp at ha
  | cons x ns ih =>
    rw [List.countP_cons]
    rcases List.mem_cons.mp ha with rfl | ha
    · have hnotin := (List.nodup_cons.mp hnd).1
      have hz : ns.countP (fun y => decide (a = y)) = 0 := by
        rw [List.countP_eq_zero]
        intro y hy
        simp
        intro hc
        exact hnotin (hc ▸ hy)
      simp [hz]
    · have hax : a ≠ x := fun hc => (List.nodup_cons.mp hnd).1 (hc ▸ ha)
      rw [ih (List.nodup_cons.mp hnd).2 ha]
      simp [hax]

theorem countP_or_split (ns : List V) (a b : V) (hab : a ≠ b) :
    ns.countP (fun x => decide (a = x ∨ b = x)) =
      ns.countP (fun x => decide (a = x)) + ns.countP (fun x => decide (b = x)) := by
  induction ns with
  | nil => simp
  | cons x ns ih =>
    simp only [List.countP_cons, ih]
    by_cases h1 : a = x <;> by_cases h2 : b = x
    · exact absurd (h1.trans h2.symm) hab
    all_goals simp [h1, h2]
    all_goals omega

theorem countP_pair (ns : List V) (a b : V) (hab : a ≠ b) (hnd : ns.Nodup)
    (ha : a ∈ ns) (hb : b ∈ ns) :
    ns.countP (fun x => decide (a = x ∨ b = x)) = 2 := by
  rw [countP_or_split ns a b hab, countP_single_of_nodup ns a hnd ha,
    countP_single_of_nodup ns b hnd hb]

theorem degree_sum (g : Graph) (hwf : g.WF) :
    (g.nodes.map g.degree).sum = 2 * g.edges.length := by
  obtain ⟨hnd, hmem, _⟩ := hwf
  show (g.nodes.map (fun x => g.edges.countP (fun e => decide (e.u = x ∨ e.v = x)))).sum = _
  have key : ∀ es : List Edge, (∀ e ∈ es, e.u ∈ g.nodes ∧ e.v ∈ g.nodes ∧ e.u ≠ e.v) →
      (g.nodes.map (fun x => es.countP (fun e => decide (e.u = x ∨ e.v = x)))).sum =
        2 * es.length := by
    intro es
    induction es with
    | nil => intro _; simp
    | cons e es ih =>
      intro h
      obtain ⟨heu, hev, hne⟩ := h e (List.mem_cons_self _ _)
      have hrest := ih (fun f hf => h f (List.mem_cons_of_mem _ hf))
      have hsplit : (g.nodes.map (fun x => (e :: es).countP
          (fun f => decide (f.u = x ∨ f.v = x)))).sum =
          (g.nodes.map (fun x => es.countP (fun f => decide (f.u = x ∨ f.v = x)))).sum +
          (g.nodes.map (fun x => if decide (e.u = x ∨ e.v = x) = true then 1 else 0)).sum := by
        rw [← sum_map_add]
        congr 1
        apply List.map_eq_map_iff.mpr
        intro x _
        rw [List.countP_cons]
      rw [hsplit, hrest, sum_map_ite_countP, countP_pair g.nodes e.u e.v hne hnd heu hev]
      simp
      omega
  exact key g.edges hmem

theorem countP_odd_parity (l : List Nat) :
    l.countP (fun n => decide (n % 2 = 1)) % 2 = l.sum % 2 := by
  induction l with
  | nil => rfl
  | cons a l ih =>
    rw [List.countP_cons, List.sum_cons]
    by_cases h : a % 2 = 1 <;> simp [h] <;> omega

/-- The handshake lemma: the number of odd-degree vertices is even. -/
theorem odd_nodes_even (g : Graph) (hwf : g.WF) : (odd_nodes g).length % 2 = 0 := by
  unfold odd_nodes
  rw [← List.countP_eq_length_filter]
  have h1 : g.nodes.countP (fun n => decide (g.degree n % 2 = 1)) =
      (g.nodes.map g.degree).countP (fun n => decide (n % 2 = 1)) := by
    rw [List.countP_map]
    rfl
  rw [h1]
  have h2 := countP_odd_parity (g.nodes.map g.degree)
  rw [degree_sum g hwf] at h2
  omega

/-! ### The matcher: enumeration, optimality, perfection -/

theorem allMatchingsF_sublist :
    ∀ (fuel : Nat) (es : List OEdge) (m : List OEdge),
      m ∈ allMatchingsF fuel es → m.Sublist es := by
  intro fuel
  induction fuel with
  | zero =>
    intro es m hm
    cases es with
    | nil => simp [allMatchingsF] at hm; simp [hm]
    | cons e es => simp [allMatchingsF] at hm; simp [hm]
  | succ fuel ih =>
    intro es m hm
    cases es with
    | nil => simp [allMatchingsF] at hm; simp [hm]
    | cons e es =>
      rw [allMatchingsF] at hm
      rcases List.mem_append.mp hm with hm | hm
      · exact (ih es m hm).cons e
      · rcases List.mem_map.mp hm with ⟨m2, hm2, hmm⟩
        subst hmm
        exact (List.Sublist.trans (ih _ m2 hm2) (List.filter_sublist es)).cons₂ e

theorem allMatchingsF_pairwise :
    ∀ (fuel : Nat) (es : List OEdge) (m : List OEdge),
      m ∈ allMatchingsF fuel es → m.Pairwise (fun a b => ¬ touches a b) := by
  intro fuel
  induction fuel with
  | zero =>
    intro es m hm
    cases es with
    | nil => simp [allMatchingsF] at hm; simp [hm]
    | cons e es => simp [allMatchingsF] at hm; simp [hm]
  | succ fuel ih =>
    intro es m hm
    cases es with
    | nil => simp [allMatchingsF] at hm; simp [hm]
    | cons e es =>
      rw [allMatchingsF] at hm
      rcases List.mem_append.mp hm with hm | hm
      · exact ih es m hm
      · rcases List.mem_map.mp hm with ⟨m2, hm2, hmm⟩
        subst hmm
        refine List.pairwise_cons.mpr ⟨?_, ih _ m2 hm2⟩
        intro f hf
        have hsub := allMatchingsF_sublist fuel _ m2 hm2
        have hfm : f ∈ dropTouching e es := hsub.subset hf
        unfold dropTouching at hfm
        have := List.of_mem_filter hfm
        simpa using this

theorem allMatchingsF_complete :
    ∀ (fuel : Nat) (es : List OEdge) (m : List OEdge), es.length ≤ fuel →
      m.Sublist es → m.Pairwise (fun a b => ¬ touches a b) →
      m ∈ allMatchingsF fuel es := by
  intro fuel
  induction fuel with
  | zero =>
    intro es m hlen hsub _
    have : es = [] := List.length_eq_zero.mp (Nat.le_zero.mp hlen)
    subst this
    have : m = [] := List.sublist_nil.mp hsub
    subst this
    simp [allMatchingsF]
  | succ fuel ih =>
    intro es m hlen hsub hpw
    cases es with
    | nil =>
      have : m = [] := List.sublist_nil.mp hsub
      subst this
      simp [allMatchingsF]
    | cons e es =>
      rw [allMatchingsF]
      simp at hlen
      cases hsub with
      | cons _ hsub2 =>
        exact List.mem_append_left _ (ih es m (by omega) hsub2 hpw)
      | cons₂ _ hsub2 =>
        rename_i m2
        rcases List.pairwise_cons.mp hpw with ⟨hhead, hrest⟩
        have hfix : m2.filter (fun f => !(decide (touches e f))) = m2 :=
          List.filter_eq_self.mpr (fun f hf => by simpa using hhead f hf)
        have hsub3 : m2.Sublist (dropTouching e es) := by
          unfold dropTouching
          rw [← hfix]
          exact hsub2.filter _
        have hlen2 : (dropTouching e es).length ≤ fuel := by
          unfold dropTouching
          have := List.length_filter_le (fun f => !(decide (touches e f))) es
          omega
        exact List.mem_append_right _
          (List.mem_map_of_mem _ (ih (dropTouching e es) m2 hlen2 hsub3 hrest))

theorem nil_mem_allMatchingsF : ∀ (fuel : Nat) (es : List OEdge),
    [] ∈ allMatchingsF fuel es := by
  intro fuel
  induction fuel with
  | zero => intro es; cases es <;> simp [allMatchingsF]
  | succ fuel ih =>
    intro es
    cases es with
    | nil => simp [allMatchingsF]
    | cons e es =>
      rw [allMatchingsF]
      exact List.mem_append_left _ (ih es)

/-- Non-strict (cardinality, weight) lexicographic order. -/
def lexLe (a b : List OEdge) : Prop :=
  a.length < b.length ∨ (a.length = b.length ∧ mweight a ≤ mweight b)

theorem betterB_false_iff (a b : List OEdge) : betterB a b = false ↔ lexLe a b := by
  unfold betterB lexLe
  simp
  omega

theorem betterB_true_lexLe (a b : List OEdge) (h : betterB a b = true) : lexLe b a := by
  unfold betterB at h
  simp at h
  unfold lexLe
  omega

theorem lexLe_refl (a : List OEdge) : lexLe a a := Or.inr ⟨rfl, le_refl _⟩

theorem lexLe_trans (a b c : List OEdge) (h1 : lexLe a b) (h2 : lexLe b c) :
    lexLe a c := by
  unfold lexLe at h1 h2 ⊢
  rcases h1 with h1 | ⟨h1, h1w⟩ <;> rcases h2 with h2 | ⟨h2, h2w⟩
  · exact Or.inl (h1.trans h2)
  · exact Or.inl (h2 ▸ h1)
  · exact Or.inl (h1 ▸ h2)
  · exact Or.inr ⟨h1.trans h2, h1w.trans h2w⟩

theorem pickBest_spec (ms : List (List OEdge)) (acc : List OEdge) :
    lexLe acc (ms.foldl (fun best m => if betterB m best then m else best) acc) ∧
    (∀ m ∈ ms, lexLe m (ms.foldl (fun best m => if betterB m best then m else best) acc)) ∧
    (ms.foldl (fun best m => if betterB m best then m else best) acc = acc ∨
      ms.foldl (fun best m => if betterB m best then m else best) acc ∈ ms) := by
  induction ms generalizing acc with
  | nil => exact ⟨lexLe_refl acc, by simp, Or.inl rfl⟩
  | cons m ms ih =>
    simp only [List.foldl_cons]
    by_cases hb : betterB m acc
    · rw [if_pos hb]
      rcases ih m with ⟨hle, hall, hmem⟩
      refine ⟨lexLe_trans _ _ _ (betterB_true_lexLe m acc hb) hle, ?_, ?_⟩
      · intro m2 hm2
        rcases List.mem_cons.mp hm2 with rfl | hm2
        · exact hle
        · exact hall m2 hm2
      · rcases hmem with h | h
        · exact Or.inr (by rw [h]; exact List.mem_cons_self _ _)
        · exact Or.inr (List.mem_cons_of_mem _ h)
    · rw [if_neg hb]
      rcases ih acc with ⟨hle, hall, hmem⟩
      refine ⟨hle, ?_, ?_⟩
      · intro m2 hm2
        rcases List.mem_cons.mp hm2 with rfl | hm2
        · exact lexLe_trans _ _ _ ((betterB_false_iff m2 acc).mp (by simpa using hb)) hle
        · exact hall m2 hm2
      · rcases hmem with h | h
        · exact Or.inl h
        · exact Or.inr (List.mem_cons_of_mem _ h)

theorem mwm_mem (og : OGraph) : max_weight_matching og ∈ allMatchings og.edges := by
  unfold max_weight_matching pickBest
  rcases (pickBest_spec (allMatchings og.edges) []).2.2 with h | h
  · rw [h]
    exact nil_mem_allMatchingsF _ _
  · exact h

theorem mwm_maximal (og : OGraph) (m : List OEdge) (hm : m ∈ allMatchings og.edges) :
    lexLe m (max_weight_matching og) :=
  (pickBest_spec (allMatchings og.edges) []).2.1 m hm

/-! ### Structure of the odd-vertex cost graph -/

theorem oddEdgesFor_entries (u : V) (paths : List (V × List V)) :
    ∀ (vs : List V) (L : List OEdge), oddEdgesFor u paths vs = .ok L →
      ∀ e ∈ L, e.u = u ∧ e.v ∈ vs ∧ e.v < u ∧ lookupPath paths e.v = some e.path := by
  intro vs
  induction vs with
  | nil =>
    intro L hL e he
    simp [oddEdgesFor] at hL
    subst hL
    simp at he
  | cons v vs ih =>
    intro L hL e he
    unfold oddEdgesFor at hL
    split at hL
    · rcases ih L hL e he with ⟨h1, h2, h3, h4⟩
      exact ⟨h1, List.mem_cons_of_mem _ h2, h3, h4⟩
    · rename_i hle
      cases hlk : lookupPath paths v with
      | none => rw [hlk] at hL; simp at hL
      | some p =>
        rw [hlk] at hL
        cases hrec : oddEdgesFor u paths vs with
        | error e2 => rw [hrec] at hL; simp at hL
        | ok rest =>
          rw [hrec] at hL
          simp at hL
          subst hL
          rcases List.mem_cons.mp he with rfl | he2
          · exact ⟨rfl, List.mem_cons_self _ _, by show v < u; exact lt_of_not_le hle, hlk⟩
          · rcases ih rest hrec e he2 with ⟨h1, h2, h3, h4⟩
            exact ⟨h1, List.mem_cons_of_mem _ h2, h3, h4⟩

theorem oddEdgesFor_complete (u : V) (paths : List (V × List V)) :
    ∀ (vs : List V) (L : List OEdge), oddEdgesFor u paths vs = .ok L →
      ∀ v ∈ vs, v < u → ∃ e ∈ L, e.u = u ∧ e.v = v := by
  intro vs
  induction vs with
  | nil => intro L _ v hv; simp at hv
  | cons v vs ih =>
    intro L hL v2 hv2 hlt
    unfold oddEdgesFor at hL
    split at hL
    · rename_i hle
      rcases List.mem_cons.mp hv2 with rfl | hv2
      · exact absurd hlt (not_lt.mpr hle)
      · exact ih L hL v2 hv2 hlt
    · rename_i hle
      cases hlk : lookupPath paths v with
      | none => rw [hlk] at hL; simp at hL
      | some p =>
        rw [hlk] at hL
        cases hrec : oddEdgesFor u paths vs with
        | error e2 => rw [hrec] at hL; simp at hL
        | ok rest =>
          rw [hrec] at hL
          simp at hL
          subst hL
          rcases List.mem_cons.mp hv2 with rfl | hv2
          · exact ⟨⟨u, v2, 1 - (p.length : Int), p⟩, List.mem_cons_self _ _, rfl, rfl⟩
          · rcases ih rest hrec v2 hv2 hlt with ⟨e, he, h1, h2⟩
            exact ⟨e, List.mem_cons_of_mem _ he, h1, h2⟩

theorem oddEdgesFor_ok (u : V) (paths : List (V × List V)) :
    ∀ (vs : List V), (∀ v ∈ vs, v < u → v ∈ keysOf paths) →
      ∃ L, oddEdgesFor u paths vs = .ok L := by
  intro vs
  induction vs with
  | nil => exact fun _ => ⟨[], rfl⟩
  | cons v vs ih =>
    intro h
    rcases ih (fun x hx => h x (List.mem_cons_of_mem _ hx)) with ⟨L, hL⟩
    unfold oddEdgesFor
    by_cases hle : u ≤ v
    · rw [if_pos hle]
      exact ⟨L, hL⟩
    · rw [if_neg hle]
      rcases lookupPath_found paths v (h v (List.mem_cons_self _ _) (lt_of_not_le hle)) with ⟨p, hp⟩
      rw [hp, hL]
      exact ⟨_, rfl⟩

theorem oddEdgesFor_pairwise (u : V) (paths : List (V × List V)) :
    ∀ (vs : List V) (L : List OEdge), vs.Nodup → oddEdgesFor u paths vs = .ok L →
      L.Pairwise (fun e f => e.v ≠ f.v) := by
  intro vs
  induction vs with
  | nil => intro L _ hL; simp [oddEdgesFor] at hL; subst hL; simp
  | cons v vs ih =>
    intro L hnd hL
    unfold oddEdgesFor at hL
    split at hL
    · exact ih L (List.nodup_cons.mp hnd).2 hL
    · cases hlk : lookupPath paths v with
      | none => rw [hlk] at hL; simp at hL
      | some p =>
        rw [hlk] at hL
        cases hrec : oddEdgesFor u paths vs with
        | error e2 => rw [hrec] at hL; simp at hL
        | ok rest =>
          rw [hrec] at hL
          simp at hL
          subst hL
          refine List.pairwise_cons.mpr ⟨?_, ih rest (List.nodup_cons.mp hnd).2 hrec⟩
          intro f hf
          show v ≠ f.v
          intro hc
          have hfv := (oddEdgesFor_entries u paths vs rest hrec f hf).2.1
          rw [← hc] at hfv
          exact (List.nodup_cons.mp hnd).1 hfv

theorem oddEdges_entries (g : Graph) (vs : List V) :
    ∀ (us : List V) (L : List OEdge), oddEdges g vs us = .ok L →
      ∀ e ∈ L, e.u ∈ us ∧ e.v ∈ vs ∧ e.v < e.u ∧
        lookupPath (shortest_path g e.u) e.v = some e.path := by
  intro us
  induction us with
  | nil => intro L hL e he; simp [oddEdges] at hL; subst hL; simp at he
  | cons u us ih =>
    intro L hL e he
    unfold oddEdges at hL
    cases hfor : oddEdgesFor u (shortest_path g u) vs with
    | error e2 => rw [hfor] at hL; simp at hL
    | ok here =>
      rw [hfor] at hL
      cases hrec : oddEdges g vs us with
      | error e2 => rw [hrec] at hL; simp at hL
      | ok rest =>
        rw [hrec] at hL
        simp at hL
        subst hL
        rcases List.mem_append.mp he with he | he
        · rcases oddEdgesFor_entries u _ vs here hfor e he with ⟨h1, h2, h3, h4⟩
          subst h1
          exact ⟨List.mem_cons_self _ _, h2, h3, h4⟩
        · rcases ih rest hrec e he with ⟨h1, h2, h3, h4⟩
          exact ⟨List.mem_cons_of_mem _ h1, h2, h3, h4⟩

theorem oddEdges_complete (g : Graph) (vs : List V) :
    ∀ (us : List V) (L : List OEdge), oddEdges g vs us = .ok L →
      ∀ u ∈ us, ∀ v ∈ vs, v < u → ∃ e ∈ L, e.u = u ∧ e.v = v := by
  intro us
  induction us with
  | nil => intro L _ u hu; simp at hu
  | cons u us ih =>
    intro L hL u2 hu2 v hv hlt
    unfold oddEdges at hL
    cases hfor : oddEdgesFor u (shortest_path g u) vs with
    | error e2 => rw [hfor] at hL; simp at hL
    | ok here =>
      rw [hfor] at hL
      cases hrec : oddEdges g vs us with
      | error e2 => rw [hrec] at hL; simp at hL
      | ok rest =>
        rw [hrec] at hL
        simp at hL
        subst hL
        rcases List.mem_cons.mp hu2 with rfl | hu2
        · rcases oddEdgesFor_complete u2 _ vs here hfor v hv hlt with ⟨e, he, h1, h2⟩
          exact ⟨e, List.mem_append_left _ he, h1, h2⟩
        · rcases ih rest hrec u2 hu2 v hv hlt with ⟨e, he, h1, h2⟩
          exact ⟨e, List.mem_append_right _ he, h1, h2⟩

theorem oddEdges_ok (g : Graph) (vs : List V) :
    ∀ (us : List V), (∀ u ∈ us, ∀ v ∈ vs, v < u → v ∈ keysOf (shortest_path g u)) →
      ∃ L, oddEdges g vs us = .ok L := by
  intro us
  induction us with
  | nil => exact fun _ => ⟨[], rfl⟩
  | cons u us ih =>
    intro h
    rcases oddEdgesFor_ok u (shortest_path g u) vs
      (fun v hv hlt => h u (List.mem_cons_self _ _) v hv hlt) with ⟨here, hhere⟩
    rcases ih (fun u2 hu2 v hv hlt => h u2 (List.mem_cons_of_mem _ hu2) v hv hlt)
      with ⟨rest, hrest⟩
    unfold oddEdges
    rw [hhere, hrest]
    exact ⟨_, rfl⟩

theorem oddEdges_pairwise (g : Graph) (vs : List V) :
    ∀ (us : List V) (L : List OEdge), us.Nodup → vs.Nodup →
      oddEdges g vs us = .ok L →
      L.Pairwise (fun e f => e.u ≠ f.u ∨ e.v ≠ f.v) := by
  intro us
  induction us with
  | nil => intro L _ _ hL; simp [oddEdges] at hL; subst hL; simp
  | cons u us ih =>
    intro L hndu hndv hL
    unfold oddEdges at hL
    cases hfor : oddEdgesFor u (shortest_path g u) vs with
    | error e2 => rw [hfor] at hL; simp at hL
    | ok here =>
      rw [hfor] at hL
      cases hrec : oddEdges g vs us with
      | error e2 => rw [hrec] at hL; simp at hL
      | ok rest =>
        rw [hrec] at hL
        simp at hL
        subst hL
        rw [List.pairwise_append]
        refine ⟨?_, ih rest (List.nodup_cons.mp hndu).2 hndv hrec, ?_⟩
        · have hpw := oddEdgesFor_pairwise u _ vs here hndv hfor
          exact hpw.imp (fun h => Or.inr h)
        · intro a ha b hb
          have hau := (oddEdgesFor_entries u _ vs here hfor a ha).1
          have hbu := (oddEdges_entries g vs us rest hrec b hb).1
          left
          rw [hau]
          intro hc
          exact (List.nodup_cons.mp hndu).1 (hc ▸ hbu)

/-- On a connected well-formed graph, odd_graph succeeds. -/
theorem odd_graph_ok (g : Graph) (hwf : g.WF) (hconn : g.Connected) :
    ∃ L, odd_graph g = .ok ⟨L⟩ ∧ oddEdges g (odd_nodes g) (odd_nodes g) = .ok L := by
  have hcond : ∀ u ∈ odd_nodes g, ∀ v ∈ odd_nodes g, v < u →
      v ∈ keysOf (shortest_path g u) := by
    intro u hu v hv _
    have hu2 : u ∈ g.nodes := List.mem_of_mem_filter hu
    have hv2 : v ∈ g.nodes := List.mem_of_mem_filter hv
    exact shortest_path_complete g hwf u hu2 v (connected_reach g hconn u v hu2 hv2)
  rcases oddEdges_ok g (odd_nodes g) (odd_nodes g) hcond with ⟨L, hL⟩
  refine ⟨L, ?_, hL⟩
  unfold odd_graph
  rw [hL]
  rfl

/-! ### Perfection of the chosen matching -/

theorem endsOf_mem (m : List OEdge) (x : V) :
    x ∈ endsOf m ↔ ∃ e ∈ m, x = e.u ∨ x = e.v := by
  induction m with
  | nil => simp [endsOf]
  | cons e m ih =>
    unfold endsOf
    simp only [List.mem_cons, ih]
    constructor
    · rintro (rfl | rfl | ⟨f, hf, hor⟩)
      · exact ⟨e, Or.inl rfl, Or.inl rfl⟩
      · exact ⟨e, Or.inl rfl, Or.inr rfl⟩
      · exact ⟨f, Or.inr hf, hor⟩
    · rintro ⟨f, (rfl | hf), hor⟩
      · rcases hor with rfl | rfl
        · exact Or.inl rfl
        · exact Or.inr (Or.inl rfl)
      · exact Or.inr (Or.inr ⟨f, hf, hor⟩)

theorem touches_symm (e f : OEdge) (h : touches e f) : touches f e := by
  unfold touches at h ⊢
  tauto

theorem endsOf_length (m : List OEdge) : (endsOf m).length = 2 * m.length := by
  induction m with
  | nil => rfl
  | cons e m ih => unfold endsOf; simp [ih]; omega

theorem endsOf_nodup (m : List OEdge) (hpw : m.Pairwise (fun a b => ¬ touches a b))
    (hne : ∀ e ∈ m, e.u ≠ e.v) : (endsOf m).Nodup := by
  induction m with
  | nil => simp [endsOf]
  | cons e m ih =>
    unfold endsOf
    rcases List.pairwise_cons.mp hpw with ⟨hhead, hrest⟩
    have hein : e.u ∉ endsOf m := by
      intro hc
      rcases (endsOf_mem m e.u).mp hc with ⟨f, hf, hor⟩
      exact hhead f hf (by unfold touches; tauto)
    have hevn : e.v ∉ endsOf m := by
      intro hc
      rcases (endsOf_mem m e.v).mp hc with ⟨f, hf, hor⟩
      exact hhead f hf (by unfold touches; tauto)
    refine List.nodup_cons.mpr ⟨?_, List.nodup_cons.mpr ⟨hevn, ih hrest
      (fun f hf => hne f (List.mem_cons_of_mem _ hf))⟩⟩
    simp
    exact ⟨hne e (List.mem_cons_self _ _), hein⟩

theorem countP_not_split {α : Type} (l : List α) (p : α → Bool) :
    l.countP p + l.countP (fun x => !(p x)) = l.length := by
  induction l with
  | nil => rfl
  | cons a l ih =>
    rw [List.countP_cons, List.countP_cons]
    cases h : p a <;> simp [h] <;> omega

theorem filter_mem_perm {α : Type} [DecidableEq α] (l S : List α)
    (hndl : l.Nodup) (hndS : S.Nodup) (hsub : ∀ x ∈ S, x ∈ l) :
    (l.filter (fun x => decide (x ∈ S))).Perm S := by
  apply List.perm_iff_count.mpr
  intro a
  by_cases ha : a ∈ S
  · rw [List.count_eq_one_of_mem hndS ha,
      List.count_eq_one_of_mem (hndl.filter _)
        (by rw [List.mem_filter]; exact ⟨hsub a ha, by simpa⟩)]
  · rw [List.count_eq_zero.mpr ha, List.count_eq_zero.mpr
      (fun hc => ha (by simpa using (List.mem_filter.mp hc).2))]

theorem odd_edges_nodup (g : Graph) (hwf : g.WF) (L : List OEdge)
    (hog : oddEdges g (odd_nodes g) (odd_nodes g) = .ok L) : L.Nodup := by
  have hnd : (odd_nodes g).Nodup := hwf.1.filter _
  have hpw := oddEdges_pairwise g (odd_nodes g) (odd_nodes g) L hnd hnd hog
  exact hpw.imp (fun h heq => by
    rcases h with h | h
    · exact h (by rw [heq])
    · exact h (by rw [heq]))

/-- The matching returned by the matcher on the odd graph of a connected
well-formed graph is a perfect matching of the odd-degree vertices. -/
theorem mwm_perfect (g : Graph) (hwf : g.WF) (L : List OEdge)
    (hog : oddEdges g (odd_nodes g) (odd_nodes g) = .ok L) :
    (max_weight_matching ⟨L⟩).Pairwise (fun a b => ¬ touches a b) ∧
    (∀ e ∈ max_weight_matching ⟨L⟩, e.u ∈ odd_nodes g ∧ e.v ∈ odd_nodes g ∧
      e.v < e.u ∧ lookupPath (shortest_path g e.u) e.v = some e.path) ∧
    (endsOf (max_weight_matching ⟨L⟩)).Nodup ∧
    (∀ x, coveredBy (max_weight_matching ⟨L⟩) x ↔ x ∈ odd_nodes g) := by
  have hoddnd : (odd_nodes g).Nodup := hwf.1.filter _
  have hLnd : L.Nodup := odd_edges_nodup g hwf L hog
  have hMem : max_weight_matching ⟨L⟩ ∈ allMatchings L := mwm_mem ⟨L⟩
  set M := max_weight_matching ⟨L⟩ with hMdef
  have hMsub : M.Sublist L := allMatchingsF_sublist _ _ _ hMem
  have hMpw : M.Pairwise (fun a b => ¬ touches a b) := allMatchingsF_pairwise _ _ _ hMem
  have hMnd : M.Nodup := hLnd.sublist hMsub
  have hent : ∀ e ∈ M, e.u ∈ odd_nodes g ∧ e.v ∈ odd_nodes g ∧ e.v < e.u ∧
      lookupPath (shortest_path g e.u) e.v = some e.path := by
    intro e he
    exact oddEdges_entries g (odd_nodes g) (odd_nodes g) L hog e (hMsub.subset he)
  have hne : ∀ e ∈ M, e.u ≠ e.v := fun e he => (ne_of_gt (hent e he).2.2.1)
  have hendsnd : (endsOf M).Nodup := endsOf_nodup M hMpw hne
  have hendsodds : ∀ x ∈ endsOf M, x ∈ odd_nodes g := by
    intro x hx
    rcases (endsOf_mem M x).mp hx with ⟨e, he, hor⟩
    rcases hor with rfl | rfl
    · exact (hent e he).1
    · exact (hent e he).2.1
  refine ⟨hMpw, hent, hendsnd, ?_⟩
  have hcov_sub : ∀ x, coveredBy M x → x ∈ odd_nodes g := fun x hx => hendsodds x hx
  -- it remains to show every odd vertex is covered
  have hcov_len : ((odd_nodes g).filter (fun x => decide (coveredBy M x))).length =
      2 * M.length := by
    have hperm := filter_mem_perm (odd_nodes g) (endsOf M) hoddnd hendsnd hendsodds
    have : ((odd_nodes g).filter (fun x => decide (x ∈ endsOf M))).length =
        (endsOf M).length := hperm.length_eq
    rw [← endsOf_length M]
    exact this
  have huncov_len : ((odd_nodes g).filter (fun x => !(decide (coveredBy M x)))).length =
      (odd_nodes g).length - 2 * M.length := by
    have hsplit := countP_not_split (odd_nodes g) (fun x => decide (coveredBy M x))
    rw [← List.countP_eq_length_filter] at hcov_len ⊢
    omega
  have hcov_le : 2 * M.length ≤ (odd_nodes g).length := by
    have := (List.subperm_of_subset hendsnd hendsodds).length_le
    rw [endsOf_length] at this
    exact this
  have hpar := odd_nodes_even g hwf
  intro x
  refine ⟨hcov_sub x, ?_⟩
  intro hx
  by_contra hunc
  -- x is an uncovered odd vertex, so there are at least two
  have hxU : x ∈ (odd_nodes g).filter (fun y => !(decide (coveredBy M y))) := by
    rw [List.mem_filter]
    exact ⟨hx, by simpa using hunc⟩
  have hU_pos : 1 ≤ ((odd_nodes g).filter (fun y => !(decide (coveredBy M y)))).length :=
    List.length_pos.mpr (fun hc => by rw [hc] at hxU; simp at hxU)
  have hU_two : 2 ≤ ((odd_nodes g).filter (fun y => !(decide (coveredBy M y)))).length := by
    omega
  -- extract two distinct uncovered vertices
  have hUnd : ((odd_nodes g).filter (fun y => !(decide (coveredBy M y)))).Nodup :=
    hoddnd.filter _
  obtain ⟨o1, U1, hU1⟩ : ∃ o1 U1,
      (odd_nodes g).filter (fun y => !(decide (coveredBy M y))) = o1 :: U1 := by
    cases hc : (odd_nodes g).filter (fun y => !(decide (coveredBy M y))) with
    | nil => rw [hc] at hU_pos; simp at hU_pos
    | cons a l => exact ⟨a, l, rfl⟩
  obtain ⟨o2, U2, hU2⟩ : ∃ o2 U2, U1 = o2 :: U2 := by
    cases hc : U1 with
    | nil => rw [hU1, hc] at hU_two; simp at hU_two
    | cons a l => exact ⟨a, l, rfl⟩
  rw [hU2] at hU1
  have ho1 : o1 ∈ (odd_nodes g).filter (fun y => !(decide (coveredBy M y))) := by
    rw [hU1]; exact List.mem_cons_self _ _
  have ho2 : o2 ∈ (odd_nodes g).filter (fun y => !(decide (coveredBy M y))) := by
    rw [hU1]; exact List.mem_cons_of_mem _ (List.mem_cons_self _ _)
  have hone : o1 ≠ o2 := by
    rw [hU1] at hUnd
    rcases List.nodup_cons.mp hUnd with ⟨hn1, _⟩
    exact fun hc => hn1 (hc ▸ List.mem_cons_self _ _)
  have ho1odd : o1 ∈ odd_nodes g := (List.mem_filter.mp ho1).1
  have ho2odd : o2 ∈ odd_nodes g := (List.mem_filter.mp ho2).1
  have ho1unc : ¬ coveredBy M o1 := by
    have := (List.mem_filter.mp ho1).2
    simpa using this
  have ho2unc : ¬ coveredBy M o2 := by
    have := (List.mem_filter.mp ho2).2
    simpa using this
  -- common argument, for v < u both uncovered
  have key : ∀ uu vv : V, uu ∈ odd_nodes g → vv ∈ odd_nodes g →
      ¬ coveredBy M uu → ¬ coveredBy M vv → vv < uu → False := by
    intro uu vv huodd hvodd huunc hvunc hlt
    rcases oddEdges_complete g (odd_nodes g) (odd_nodes g) L hog uu huodd vv hvodd hlt
      with ⟨e0, he0L, he0u, he0v⟩
    have he0M : e0 ∉ M := by
      intro hc
      exact huunc ((endsOf_mem M uu).mpr ⟨e0, hc, Or.inl he0u.symm⟩)
    have hdisj : ∀ f ∈ M, ¬ touches e0 f := by
      intro f hf ht
      unfold touches at ht
      rcases ht with h | h | h | h
      · exact huunc ((endsOf_mem M uu).mpr ⟨f, hf, Or.inl (by rw [← h, he0u])⟩)
      · exact huunc ((endsOf_mem M uu).mpr ⟨f, hf, Or.inr (by rw [← h, he0u])⟩)
      · exact hvunc ((endsOf_mem M vv).mpr ⟨f, hf, Or.inl (by rw [← h, he0v])⟩)
      · exact hvunc ((endsOf_mem M vv).mpr ⟨f, hf, Or.inr (by rw [← h, he0v])⟩)
    have hSnd : (e0 :: M).Nodup := List.nodup_cons.mpr ⟨he0M, hMnd⟩
    have hSsub : ∀ y ∈ e0 :: M, y ∈ L := by
      intro y hy
      rcases List.mem_cons.mp hy with rfl | hy
      · exact he0L
      · exact hMsub.subset hy
    have hperm := filter_mem_perm L (e0 :: M) hLnd hSnd hSsub
    have hm'len : (L.filter (fun y => decide (y ∈ e0 :: M))).length = M.length + 1 := by
      rw [hperm.length_eq]
      simp
    have hm'sub : (L.filter (fun y => decide (y ∈ e0 :: M))).Sublist L :=
      List.filter_sublist L
    have hm'nd : (L.filter (fun y => decide (y ∈ e0 :: M))).Nodup := hLnd.filter _
    have hm'pw : (L.filter (fun y => decide (y ∈ e0 :: M))).Pairwise
        (fun a b => ¬ touches a b) := by
      have hsym : Symmetric (fun a b : OEdge => ¬ touches a b) := by
        intro a b h hc
        exact h (touches_symm b a hc)
      refine List.Pairwise.imp_of_mem ?_ hm'nd
      intro a b ha hb hab
      have haS : a ∈ e0 :: M := by simpa using (List.mem_filter.mp ha).2
      have hbS : b ∈ e0 :: M := by simpa using (List.mem_filter.mp hb).2
      rcases List.mem_cons.mp haS with rfl | haM
      · rcases List.mem_cons.mp hbS with rfl | hbM
        · exact absurd rfl hab
        · exact hdisj b hbM
      · rcases List.mem_cons.mp hbS with rfl | hbM
        · intro hc
          exact hdisj a haM (touches_symm a b hc)
        · exact hMpw.forall hsym haM hbM hab
    have hm'mem : L.filter (fun y => decide (y ∈ e0 :: M)) ∈ allMatchings L :=
      allMatchingsF_complete L.length L _ (le_refl _) hm'sub hm'pw
    have hmax := mwm_maximal ⟨L⟩ _ hm'mem
    rw [← hMdef] at hmax
    unfold lexLe at hmax
    rcases hmax with h | ⟨h, _⟩
    · omega
    · omega
  rcases lt_trichotomy o1 o2 with h | h | h
  · exact key o2 o1 ho2odd ho1odd ho2unc ho1unc h
  · exact hone h
  · exact key o1 o2 ho1odd ho2odd ho1unc ho2unc h

/-! ### Augmentation: decomposition and degree parity -/

theorem baseWeight_of_adj (g : Graph) (p q : V) (h : g.adj p q) :
    ∃ w, baseWeight g p q = some w := by
  unfold baseWeight
  rcases h with ⟨e, he, hor⟩
  cases hf : g.edges.find? (fun e => decide (sameUPair e.u e.v p q)) with
  | none =>
    exfalso
    have := List.find?_eq_none.mp hf e he
    simp [sameUPair] at this
    tauto
  | some e2 => exact ⟨e2.weight, by simp⟩

theorem baseWeight_mem (g : Graph) (p q : V) (w : Int)
    (h : baseWeight g p q = some w) :
    ∃ e0 ∈ g.edges, e0.weight = w ∧ sameUPair e0.u e0.v p q := by
  unfold baseWeight at h
  cases hf : g.edges.find? (fun e => decide (sameUPair e.u e.v p q)) with
  | none => rw [hf] at h; simp at h
  | some e2 =>
    rw [hf] at h
    simp at h
    refine ⟨e2, List.mem_of_find?_eq_some hf, h, ?_⟩
    have := List.find?_some hf
    simpa using this

theorem addPathEdges_ok_of_adj (g : Graph) :
    ∀ (prs : List (V × V)) (mes : List MEdge), (∀ pq ∈ prs, g.adj pq.1 pq.2) →
      ∃ out, addPathEdges g mes prs = .ok out := by
  intro prs
  induction prs with
  | nil => exact fun mes _ => ⟨mes, rfl⟩
  | cons pq prs ih =>
    intro mes h
    obtain ⟨p, q⟩ := pq
    rcases baseWeight_of_adj g p q (h (p, q) (List.mem_cons_self _ _)) with ⟨w, hw⟩
    rcases ih (mes ++ [⟨p, q, w⟩]) (fun r hr => h r (List.mem_cons_of_mem _ hr)) with ⟨out, hout⟩
    exact ⟨out, by unfold addPathEdges; rw [hw]; exact hout⟩

theorem addPathEdges_shape (g : Graph) :
    ∀ (prs : List (V × V)) (mes out : List MEdge),
      addPathEdges g mes prs = .ok out →
      ∃ added, out = mes ++ added ∧
        List.Forall₂ (fun (pq : V × V) (me : MEdge) =>
          me.u = pq.1 ∧ me.v = pq.2 ∧ baseWeight g pq.1 pq.2 = some me.weight) prs added := by
  intro prs
  induction prs with
  | nil =>
    intro mes out h
    simp [addPathEdges] at h
    exact ⟨[], by simp [← h], List.Forall₂.nil⟩
  | cons pq prs ih =>
    intro mes out h
    obtain ⟨p, q⟩ := pq
    unfold addPathEdges at h
    cases hw : baseWeight g p q with
    | none => rw [hw] at h; simp at h
    | some w =>
      rw [hw] at h
      rcases ih (mes ++ [⟨p, q, w⟩]) out h with ⟨added, hadd, hfa⟩
      exact ⟨⟨p, q, w⟩ :: added, by simp [hadd],
        List.Forall₂.cons ⟨rfl, rfl, hw⟩ hfa⟩

theorem mdeg_append (es1 es2 : List MEdge) (x : V) :
    mdeg (es1 ++ es2) x = mdeg es1 x + mdeg es2 x := by
  unfold mdeg
  exact List.countP_append _ _ _

theorem mdeg_forall2 (g : Graph) (prs : List (V × V)) (added : List MEdge)
    (h : List.Forall₂ (fun (pq : V × V) (me : MEdge) =>
      me.u = pq.1 ∧ me.v = pq.2 ∧ baseWeight g pq.1 pq.2 = some me.weight) prs added)
    (x : V) :
    mdeg added x = prs.countP (fun pq => decide (pq.1 = x ∨ pq.2 = x)) := by
  induction h with
  | nil => rfl
  | cons hr hfa ih =>
    rename_i pq me prs2 added2
    unfold mdeg at ih ⊢
    rw [List.countP_cons, List.countP_cons, ih]
    obtain ⟨h1, h2, _⟩ := hr
    congr 1
    simp [h1, h2]

theorem getLast?_mem {α : Type} (l : List α) (a : α) (h : l.getLast? = some a) :
    a ∈ l := by
  cases l with
  | nil => simp at h
  | cons x l2 =>
    rw [List.getLast?_eq_getLast _ (by simp)] at h
    simp at h
    rw [← h]
    exact List.getLast_mem _

/-- Parity of a vertex's incidence count along the successive pairs of a
duplicate-free path: odd exactly at the two distinct endpoints. -/
theorem pairsOf_incidence_parity (p : List V) (hnd : p.Nodup) (a b : V)
    (hh : p.head? = some a) (hl : p.getLast? = some b) (hab : a ≠ b) (x : V) :
    (pairsOf p).countP (fun pq => decide (pq.1 = x ∨ pq.2 = x)) % 2 =
      if x = a ∨ x = b then 1 else 0 := by
  induction p generalizing a with
  | nil => simp at hh
  | cons y p2 ih =>
    have hya : a = y := by simp at hh; exact hh.symm
    subst hya
    cases p2 with
    | nil =>
      simp at hl
      exact absurd hl hab
    | cons z rest =>
      have hl2 : (z :: rest).getLast? = some b := by
        rw [List.getLast?_cons_cons] at hl
        exact hl
      have hanin : a ∉ z :: rest := (List.nodup_cons.mp hnd).1
      have hnd2 : (z :: rest).Nodup := (List.nodup_cons.mp hnd).2
      show ((a, z) :: pairsOf (z :: rest)).countP _ % 2 = _
      rw [List.countP_cons]
      dsimp only
      cases rest with
      | nil =>
        have hzb : z = b := by simpa using hl2
        rw [← hzb]
        show (List.countP _ (pairsOf [z]) + _) % 2 = _
        simp only [pairsOf, List.countP_nil]
        by_cases h1 : x = a
        · rw [if_pos (decide_eq_true (Or.inl h1.symm)), if_pos (Or.inl h1)]
        · by_cases h2 : x = z
          · rw [if_pos (decide_eq_true (Or.inr h2.symm)), if_pos (Or.inr h2)]
          · rw [if_neg (by
                simp only [decide_eq_true_eq]
                exact fun h => h.elim (fun hc => h1 hc.symm) (fun hc => h2 hc.symm)),
              if_neg (fun h => h.elim h1 h2)]
      | cons r2 rest2 =>
        have hzb : z ≠ b := by
          intro hc
          subst hc
          have hl3 : (r2 :: rest2).getLast? = some z := by
            rw [List.getLast?_cons_cons] at hl2
            exact hl2
          exact (List.nodup_cons.mp hnd2).1 (getLast?_mem _ z hl3)
        have hih := ih hnd2 z rfl hl2 hzb
        by_cases hxa : x = a
        · have hxz : x ≠ z := fun hc => hanin (by
            rw [hxa.symm.trans hc]
            exact List.mem_cons_self _ _)
          have hxb : x ≠ b := fun hc => hab (hxa.symm.trans hc)
          rw [if_neg (fun h => h.elim hxz hxb)] at hih
          rw [if_pos (decide_eq_true (Or.inl hxa.symm)), if_pos (Or.inl hxa)]
          omega
        · by_cases hxz : x = z
          · have hxb : x ≠ b := fun hc => hzb (hxz.symm.trans hc)
            rw [if_pos (Or.inl hxz)] at hih
            rw [if_pos (decide_eq_true (Or.inr hxz.symm)),
              if_neg (fun h => h.elim hxa hxb)]
            omega
          · by_cases hxb : x = b
            · rw [if_pos (Or.inr hxb)] at hih
              rw [if_neg (by
                  simp only [decide_eq_true_eq]
                  exact fun h => h.elim (fun hc => hxa hc.symm) (fun hc => hxz hc.symm)),
                if_pos (Or.inr hxb)]
              omega
            · rw [if_neg (fun h => h.elim hxz hxb)] at hih
              rw [if_neg (by
                  simp only [decide_eq_true_eq]
                  exact fun h => h.elim (fun hc => hxa hc.symm) (fun hc => hxz hc.symm)),
                if_neg (fun h => h.elim hxa hxb)]
              omega

theorem augment_ok (g : Graph) :
    ∀ (m : List OEdge) (mes : List MEdge),
      (∀ e ∈ m, ∀ pq ∈ pairsOf e.path, g.adj pq.1 pq.2) →
      ∃ out, augment g mes m = .ok out := by
  intro m
  induction m with
  | nil => exact fun mes _ => ⟨mes, rfl⟩
  | cons e m ih =>
    intro mes h
    rcases addPathEdges_ok_of_adj g (pairsOf e.path) mes
      (h e (List.mem_cons_self _ _)) with ⟨mes2, hmes2⟩
    rcases ih mes2 (fun f hf => h f (List.mem_cons_of_mem _ hf)) with ⟨out, hout⟩
    refine ⟨out, ?_⟩
    unfold augment
    rw [hmes2]
    exact hout

theorem augment_decomp (g : Graph) :
    ∀ (m : List OEdge) (mes out : List MEdge),
      augment g mes m = .ok out →
      ∃ added, out = mes ++ added ∧
        (∀ me ∈ added, baseWeight g me.u me.v = some me.weight) ∧
        added.length = (m.map (fun e => (pairsOf e.path).length)).sum := by
  intro m
  induction m with
  | nil =>
    intro mes out h
    simp [augment] at h
    exact ⟨[], by simp [← h], by simp, by simp⟩
  | cons e m ih =>
    intro mes out h
    unfold augment at h
    cases hap : addPathEdges g mes (pairsOf e.path) with
    | error e0 => rw [hap] at h; simp at h
    | ok mes2 =>
      rw [hap] at h
      rcases addPathEdges_shape g (pairsOf e.path) mes mes2 hap with ⟨a1, ha1, hfa⟩
      rcases ih mes2 out h with ⟨a2, ha2, hmem2, hlen2⟩
      refine ⟨a1 ++ a2, ?_, ?_, ?_⟩
      · rw [ha2, ha1, List.append_assoc]
      · intro me hme
        rcases List.mem_append.mp hme with hme | hme
        · rcases List.forall₂_iff_get.mp hfa with ⟨hflen, hfget⟩
          rcases List.mem_iff_get.mp hme with ⟨i, hi⟩
          have := hfget i (by omega) i.isLt
          rw [hi] at this
          obtain ⟨h1, h2, h3⟩ := this
          rw [h1, h2]
          exact h3
        · exact hmem2 me hme
      · have := List.Forall₂.length_eq hfa
        simp [hlen2]
        omega

theorem augment_parity (g : Graph) :
    ∀ (m : List OEdge) (mes out : List MEdge),
    (∀ e ∈ m, e.path.Nodup ∧ e.path.head? = some e.u ∧
      e.path.getLast? = some e.v ∧ e.u ≠ e.v) →
    augment g mes m = .ok out →
    ∀ x, mdeg out x % 2 =
      (mdeg mes x + m.countP (fun e => decide (e.u = x ∨ e.v = x))) % 2 := by
  intro m
  induction m with
  | nil =>
    intro mes out _ h x
    simp [augment] at h
    subst h
    simp
  | cons e m ih =>
    intro mes out hgood h x
    unfold augment at h
    cases hap : addPathEdges g mes (pairsOf e.path) with
    | error e0 => rw [hap] at h; simp at h
    | ok mes2 =>
      rw [hap] at h
      rcases addPathEdges_shape g (pairsOf e.path) mes mes2 hap with ⟨added, hadd, hfa⟩
      obtain ⟨hpnd, hph, hpl, hpne⟩ := hgood e (List.mem_cons_self _ _)
      have h1 : mdeg added x =
          (pairsOf e.path).countP (fun pq => decide (pq.1 = x ∨ pq.2 = x)) :=
        mdeg_forall2 g _ _ hfa x
      have h2 := pairsOf_incidence_parity e.path hpnd e.u e.v hph hpl hpne x
      have h3 := ih mes2 out (fun f hf => hgood f (List.mem_cons_of_mem _ hf)) h x
      rw [hadd, mdeg_append, h1] at h3
      rw [List.countP_cons]
      by_cases hinc : x = e.u ∨ x = e.v
      · rw [if_pos hinc] at h2
        have hb : (decide (e.u = x ∨ e.v = x)) = true :=
          decide_eq_true (hinc.elim (fun hc => Or.inl hc.symm) (fun hc => Or.inr hc.symm))
        rw [hb, if_pos (Eq.refl true)]
        omega
      · rw [if_neg hinc] at h2
        have hb : (decide (e.u = x ∨ e.v = x)) = false :=
          decide_eq_false
            (fun h => hinc (h.elim (fun hc => Or.inl hc.symm) (fun hc => Or.inr hc.symm)))
        rw [hb, if_neg (Bool.false_ne_true)]
        omega

theorem matching_countP :
    ∀ (M : List OEdge), (endsOf M).Nodup → ∀ (x : V),
    M.countP (fun e => decide (e.u = x ∨ e.v = x)) =
      if coveredBy M x then 1 else 0 := by
  intro M
  induction M with
  | nil =>
    intro _ x
    rw [if_neg (by simp [coveredBy, endsOf])]
    simp
  | cons e M ih =>
    intro hnd x
    have hnd' : (e.u :: e.v :: endsOf M).Nodup := hnd
    rcases List.nodup_cons.mp hnd' with ⟨hu, hnd2⟩
    rcases List.nodup_cons.mp hnd2 with ⟨hv, hnd3⟩
    rw [List.countP_cons, ih hnd3 x]
    by_cases hxu : x = e.u
    · have hb : (decide (e.u = x ∨ e.v = x)) = true := decide_eq_true (Or.inl hxu.symm)
      rw [hb, if_pos (Eq.refl true)]
      have hnc : ¬ coveredBy M x := fun hc => hu (by
        rw [hxu] at hc
        exact List.mem_cons_of_mem _ hc)
      have hmem : coveredBy (e :: M) x := by
        show x ∈ e.u :: e.v :: endsOf M
        rw [hxu]
        exact List.mem_cons_self _ _
      rw [if_neg hnc, if_pos hmem]
    · by_cases hxv : x = e.v
      · have hb : (decide (e.u = x ∨ e.v = x)) = true := decide_eq_true (Or.inr hxv.symm)
        rw [hb, if_pos (Eq.refl true)]
        have hnc : ¬ coveredBy M x := fun hc => hv (hxv ▸ hc)
        have hmem : coveredBy (e :: M) x := by
          show x ∈ e.u :: e.v :: endsOf M
          rw [hxv]
          exact List.mem_cons_of_mem _ (List.mem_cons_self _ _)
        rw [if_neg hnc, if_pos hmem]
      · have hb : (decide (e.u = x ∨ e.v = x)) = false :=
          decide_eq_false (fun h => h.elim (fun hc => hxu hc.symm) (fun hc => hxv hc.symm))
        rw [hb, if_neg (Bool.false_ne_true)]
        have hiff : coveredBy (e :: M) x ↔ coveredBy M x := by
          show x ∈ e.u :: e.v :: endsOf M ↔ x ∈ endsOf M
          constructor
          · intro h
            rcases List.mem_cons.mp h with h | h
            · exact absurd h hxu
            · rcases List.mem_cons.mp h with h | h
              · exact absurd h hxv
              · exact h
          · intro h
            exact List.mem_cons_of_mem _ (List.mem_cons_of_mem _ h)
        by_cases hc : coveredBy M x
        · rw [if_pos hc, if_pos (hiff.mpr hc)]
        · rw [if_neg hc, if_neg (fun h => hc (hiff.mp h))]

theorem mdeg_ofGraph (g : Graph) (x : V) :
    mdeg (MultiGraph.ofGraph g).edges x = g.degree x := by
  unfold mdeg MultiGraph.ofGraph Graph.degree
  rw [List.countP_map]
  rfl

theorem degree_zero_of_not_mem (g : Graph) (hwf : g.WF) (x : V)
    (hx : x ∉ g.nodes) : g.degree x = 0 := by
  unfold Graph.degree
  rw [List.countP_eq_zero]
  intro e he
  simp only [decide_eq_true_eq]
  rintro (rfl | rfl)
  · exact hx (hwf.2.1 e he).1
  · exact hx (hwf.2.1 e he).2.1

/-- The full specification of the augmentation stage on a connected
well-formed graph: it succeeds, the multigraph is the copy of the base
graph plus duplicates of base edges, every degree is even, and duplicates
are added exactly when odd vertices exist. -/
theorem cpp_augment_spec (g : Graph) (hwf : g.WF) (hconn : g.Connected) :
    ∃ added, cpp_augment g = .ok ⟨g.nodes, g.nodeAttrs, (MultiGraph.ofGraph g).edges ++ added⟩ ∧
      (∀ me ∈ added, baseWeight g me.u me.v = some me.weight) ∧
      (∀ x, mdeg ((MultiGraph.ofGraph g).edges ++ added) x % 2 = 0) ∧
      (odd_nodes g = [] → added = []) ∧
      (odd_nodes g ≠ [] → added ≠ []) := by
  rcases odd_graph_ok g hwf hconn with ⟨L, hog, hoE⟩
  obtain ⟨hMpw, hent, hendsnd, hcov⟩ := mwm_perfect g hwf L hoE
  have hpaths : ∀ e ∈ max_weight_matching ⟨L⟩, e.path ≠ [] ∧ e.path.head? = some e.u ∧
      e.path.getLast? = some e.v ∧ e.path.Nodup ∧
      (∀ pq ∈ pairsOf e.path, g.adj pq.1 pq.2) := by
    intro e he
    obtain ⟨hu, hv, hlt, hlp⟩ := hent e he
    have hmem := lookupPath_mem _ _ _ hlp
    have hunode : e.u ∈ g.nodes := List.mem_of_mem_filter hu
    obtain ⟨_, hgood, _⟩ := shortest_path_spec g hwf e.u hunode
    obtain ⟨h1, h2, h3, h4, h5, _⟩ := hgood.2 (e.v, e.path) hmem
    exact ⟨h1, h2, h3, h4, h5⟩
  rcases augment_ok g (max_weight_matching ⟨L⟩) (MultiGraph.ofGraph g).edges
    (fun e he => (hpaths e he).2.2.2.2) with ⟨out, haug⟩
  rcases augment_decomp g (max_weight_matching ⟨L⟩) (MultiGraph.ofGraph g).edges out haug with
    ⟨added, hadd, hmemw, hlen⟩
  subst hadd
  refine ⟨added, ?_, hmemw, ?_, ?_, ?_⟩
  · unfold cpp_augment
    rw [hog]
    dsimp only
    rw [haug]
    rfl
  · intro x
    have hpar := augment_parity g (max_weight_matching ⟨L⟩) (MultiGraph.ofGraph g).edges _
      (fun e he =>
        ⟨(hpaths e he).2.2.2.1, (hpaths e he).2.1, (hpaths e he).2.2.1,
          ne_of_gt (hent e he).2.2.1⟩) haug x
    rw [hpar, mdeg_ofGraph, matching_countP (max_weight_matching ⟨L⟩) hendsnd x]
    by_cases hodd : x ∈ odd_nodes g
    · rw [if_pos ((hcov x).mpr hodd)]
      have := List.mem_filter.mp hodd
      simp only [decide_eq_true_eq] at this
      omega
    · rw [if_neg (fun hc => hodd ((hcov x).mp hc))]
      by_cases hxn : x ∈ g.nodes
      · have : ¬ (g.degree x % 2 = 1) := by
          intro hc
          exact hodd (List.mem_filter.mpr ⟨hxn, by simpa using hc⟩)
        omega
      · rw [degree_zero_of_not_mem g hwf x hxn]
  · intro hodds
    have hL : L = [] := by
      rw [hodds] at hoE
      simp [oddEdges] at hoE
      exact hoE
    have hM0 : max_weight_matching ⟨L⟩ = [] := by
      rw [hL]
      rfl
    rw [hM0] at hlen
    simp at hlen
    exact hlen
  · intro hodds
    obtain ⟨o, ho⟩ := List.exists_mem_of_ne_nil _ hodds
    have hcovo : coveredBy (max_weight_matching ⟨L⟩) o := (hcov o).mpr ho
    obtain ⟨e, he, _⟩ := (endsOf_mem (max_weight_matching ⟨L⟩) o).mp hcovo
    have hplen : 1 ≤ (pairsOf e.path).length := by
      obtain ⟨h1, h2, h3, _, _⟩ := hpaths e he
      have hne := ne_of_gt (hent e he).2.2.1
      cases hp : e.path with
      | nil => exact absurd hp h1
      | cons p0 rest =>
        cases rest with
        | nil =>
          rw [hp] at h2 h3
          simp at h2 h3
          rw [← h2, ← h3] at hne
          exact absurd rfl hne
        | cons p1 rest2 =>
          show 1 ≤ ((p0, p1) :: pairsOf (p1 :: rest2)).length
          simp
    have hmemmap : (pairsOf e.path).length ∈
        (max_weight_matching ⟨L⟩).map (fun e => (pairsOf e.path).length) :=
      List.mem_map_of_mem _ he
    have hle := List.single_le_sum (fun x _ => Nat.zero_le x) _ hmemmap
    intro hc
    rw [hc] at hlen
    simp at hlen
    omega

/-- C4: for every connected well-formed base graph with at least one
edge, the augmentation stage of chinese_postman_path succeeds and every
vertex of the augmented multigraph has even degree. -/
theorem C4_augmented_multigraph_all_degrees_even (g : Graph) (hwf : g.WF)
    (hconn : g.Connected) (hne : g.edges ≠ []) :
    ∃ mg, cpp_augment g = .ok mg ∧ ∀ x ∈ mg.nodes, mdeg mg.edges x % 2 = 0 := by
  rcases cpp_augment_spec g hwf hconn with ⟨added, hok, _, heven, _, _⟩
  exact ⟨_, hok, fun x _ => heven x⟩

/-- C4 witness: the single-edge graph G1. -/
theorem C4_witness_single_edge :
    G1.WF ∧ G1.Connected ∧ G1.edges ≠ [] ∧
    ∃ mg, cpp_augment G1 = .ok mg ∧ ∀ x ∈ mg.nodes, mdeg mg.edges x % 2 = 0 :=
  ⟨by decide, by decide, by decide,
    C4_augmented_multigraph_all_degrees_even G1 (by decide) (by decide) (by decide)⟩

theorem medge_sum_decomp (g : Graph) (added : List MEdge) :
    medge_sum ⟨g.nodes, g.nodeAttrs, (MultiGraph.ofGraph g).edges ++ added⟩ =
      edge_sum g + (added.map MEdge.weight).sum := by
  unfold medge_sum edge_sum MultiGraph.ofGraph
  rw [List.map_append, List.sum_append, List.map_map]
  rfl

/-- C5 amended: with strictly positive edge weights, the augmented
multigraph's total weight is at least the base total, with equality
exactly when the base graph has no odd-degree vertex. -/
theorem C5_amended_sum_exceeds_iff_odd (g : Graph) (hwf : g.WF)
    (hconn : g.Connected) (hne : g.edges ≠ [])
    (hpos : ∀ e ∈ g.edges, 0 < e.weight) :
    ∃ mg, cpp_augment g = .ok mg ∧ edge_sum g ≤ medge_sum mg ∧
      (medge_sum mg = edge_sum g ↔ odd_nodes g = []) := by
  rcases cpp_augment_spec g hwf hconn with ⟨added, hok, hmemw, _, hnil, hnonnil⟩
  have hw : ∀ w ∈ added.map MEdge.weight, 0 < w := by
    intro w hwmem
    rcases List.mem_map.mp hwmem with ⟨me, hme, rfl⟩
    rcases baseWeight_mem g me.u me.v me.weight (hmemw me hme) with ⟨e0, he0, he0w, _⟩
    rw [← he0w]
    exact hpos e0 he0
  have hs0 : (0 : Int) ≤ (added.map MEdge.weight).sum :=
    List.sum_nonneg (fun w hwmem => le_of_lt (hw w hwmem))
  refine ⟨_, hok, ?_, ?_⟩
  · rw [medge_sum_decomp]
    omega
  · rw [medge_sum_decomp]
    constructor
    · intro heq
      by_contra hodds
      have hadded := hnonnil hodds
      have hmne : added.map MEdge.weight ≠ [] := by
        intro hc
        exact hadded (List.map_eq_nil.mp hc)
      have := List.sum_pos _ hw hmne
      omega
    · intro hodds
      rw [hnil hodds]
      simp

/-- C5 amended witness: the single-edge graph G1 (positive weight, two
odd vertices). -/
theorem C5_amended_witness :
    G1.WF ∧ G1.Connected ∧ G1.edges ≠ [] ∧ (∀ e ∈ G1.edges, 0 < e.weight) ∧
    ∃ mg, cpp_augment G1 = .ok mg ∧ edge_sum G1 ≤ medge_sum mg ∧
      (medge_sum mg = edge_sum G1 ↔ odd_nodes G1 = []) :=
  ⟨by decide, by decide, by decide, by decide,
    C5_amended_sum_exceeds_iff_odd G1 (by decide) (by decide) (by decide) (by decide)⟩

theorem nPair_comm (a b : V) : nPair a b = nPair b a := by
  unfold nPair
  by_cases hab : a ≤ b
  · by_cases hba : b ≤ a
    · rw [if_pos hab, if_pos hba, le_antisymm hab hba]
    · rw [if_pos hab, if_neg hba]
  · by_cases hba : b ≤ a
    · rw [if_neg hab, if_pos hba]
    · exact absurd (le_of_lt (lt_of_not_le hab)) hba

theorem nPair_eq_of_sameUPair (a b c d : V) (h : sameUPair a b c d) :
    nPair a b = nPair c d := by
  rcases h with ⟨h1, h2⟩ | ⟨h1, h2⟩
  · rw [h1, h2]
  · rw [h1, h2]
    exact nPair_comm d c

theorem sameUPair_of_nPair_eq (a b c d : V) (h : nPair a b = nPair c d) :
    sameUPair a b c d := by
  unfold nPair at h
  unfold sameUPair
  by_cases hab : a ≤ b
  · rw [if_pos hab] at h
    by_cases hcd : c ≤ d
    · rw [if_pos hcd] at h
      exact Or.inl ⟨congrArg Prod.fst h, congrArg Prod.snd h⟩
    · rw [if_neg hcd] at h
      exact Or.inr ⟨congrArg Prod.fst h, congrArg Prod.snd h⟩
  · rw [if_neg hab] at h
    by_cases hcd : c ≤ d
    · rw [if_pos hcd] at h
      exact Or.inr ⟨congrArg Prod.snd h, congrArg Prod.fst h⟩
    · rw [if_neg hcd] at h
      exact Or.inl ⟨congrArg Prod.snd h, congrArg Prod.fst h⟩

theorem edgesMS_cons (e : MEdge) (es : List MEdge) :
    edgesMS (e :: es) = nPair e.u e.v ::ₘ edgesMS es := by
  unfold edgesMS
  rw [List.map_cons, Multiset.cons_coe]

theorem pairsMS_cons2 (a b : V) (l : List V) :
    pairsMS (a :: b :: l) = nPair a b ::ₘ pairsMS (b :: l) := by
  unfold pairsMS
  rw [show pairsOf (a :: b :: l) = (a, b) :: pairsOf (b :: l) from rfl,
    List.map_cons, Multiset.cons_coe]

theorem pairsMS_single (a : V) : pairsMS [a] = 0 := rfl

theorem pairsOf_cons_head {α : Type} (t b : α) (l : List α) (h : l.head? = some b) :
    pairsOf (t :: l) = (t, b) :: pairsOf l := by
  cases l with
  | nil => simp at h
  | cons x xs =>
    simp at h
    subst h
    rfl

theorem pairsOf_mem_mem : ∀ (l : List V) (p : V × V), p ∈ pairsOf l →
    p.1 ∈ l ∧ p.2 ∈ l := by
  intro l
  induction l with
  | nil => intro p hp; simp [pairsOf] at hp
  | cons a t ih =>
    intro p hp
    cases t with
    | nil => simp [pairsOf] at hp
    | cons b t2 =>
      rcases List.mem_cons.mp hp with rfl | hp
      · exact ⟨List.mem_cons_self _ _, List.mem_cons_of_mem _ (List.mem_cons_self _ _)⟩
      · rcases ih p hp with ⟨h1, h2⟩
        exact ⟨List.mem_cons_of_mem _ h1, List.mem_cons_of_mem _ h2⟩

theorem pairsOf_map_fst : ∀ (l : List V), l ≠ [] →
    (pairsOf l).map Prod.fst = l.dropLast := by
  intro l
  induction l with
  | nil => intro h; exact absurd rfl h
  | cons a t ih =>
    intro _
    cases t with
    | nil => rfl
    | cons b t2 =>
      show a :: ((pairsOf (b :: t2)).map Prod.fst) = a :: (b :: t2).dropLast
      rw [ih (by simp)]

theorem pairsOf_append_cons (a b : V) (l2 : List V) :
    ∀ (l1 : List V), l1.getLast? = some a →
      pairsOf (l1 ++ b :: l2) = pairsOf l1 ++ (a, b) :: pairsOf (b :: l2) := by
  intro l1
  induction l1 with
  | nil => intro h; simp at h
  | cons x xs ih =>
    intro h
    cases xs with
    | nil =>
      simp at h
      subst h
      rfl
    | cons y ys =>
      have h2 : (y :: ys).getLast? = some a := by rwa [List.getLast?_cons_cons] at h
      show (x, y) :: pairsOf ((y :: ys) ++ b :: l2) =
        (x, y) :: (pairsOf (y :: ys) ++ (a, b) :: pairsOf (b :: l2))
      rw [ih h2]

theorem mem_mnbrs_iff (es : List MEdge) (x w : V) :
    w ∈ mnbrs es x ↔ ∃ e ∈ es, (e.u = x ∧ e.v = w) ∨ (e.u = w ∧ e.v = x) := by
  unfold mnbrs
  induction es with
  | nil => simp
  | cons e es ih =>
    simp only [List.foldr_cons]
    constructor
    · intro h
      by_cases h1 : e.u = x
      · rw [if_pos h1] at h
        rcases List.mem_cons.mp h with rfl | h
        · exact ⟨e, List.mem_cons_self _ _, Or.inl ⟨h1, rfl⟩⟩
        · rcases ih.mp h with ⟨f, hf, hor⟩
          exact ⟨f, List.mem_cons_of_mem _ hf, hor⟩
      · rw [if_neg h1] at h
        by_cases h2 : e.v = x
        · rw [if_pos h2] at h
          rcases List.mem_cons.mp h with rfl | h
          · exact ⟨e, List.mem_cons_self _ _, Or.inr ⟨rfl, h2⟩⟩
          · rcases ih.mp h with ⟨f, hf, hor⟩
            exact ⟨f, List.mem_cons_of_mem _ hf, hor⟩
        · rw [if_neg h2] at h
          rcases ih.mp h with ⟨f, hf, hor⟩
          exact ⟨f, List.mem_cons_of_mem _ hf, hor⟩
    · intro h
      rcases h with ⟨f, hf, hor⟩
      rcases List.mem_cons.mp hf with rfl | hf
      · rcases hor with ⟨h1, h2⟩ | ⟨h1, h2⟩
        · rw [if_pos h1]
          rw [h2]
          exact List.mem_cons_self _ _
        · by_cases h3 : f.u = x
          · rw [if_pos h3]
            have hvw : f.v = w := h2.trans (h3.symm.trans h1)
            rw [hvw]
            exact List.mem_cons_self _ _
          · rw [if_neg h3, if_pos h2, h1]
            exact List.mem_cons_self _ _
      · have hmem := ih.mpr ⟨f, hf, hor⟩
        by_cases h1 : e.u = x
        · rw [if_pos h1]
          exact List.mem_cons_of_mem _ hmem
        · rw [if_neg h1]
          by_cases h2 : e.v = x
          · rw [if_pos h2]
            exact List.mem_cons_of_mem _ hmem
          · rw [if_neg h2]
            exact hmem

theorem mnbrs_append (es1 es2 : List MEdge) (x : V) :
    mnbrs (es1 ++ es2) x = mnbrs es1 x ++ mnbrs es2 x := by
  unfold mnbrs
  induction es1 with
  | nil => simp
  | cons e es ih =>
    simp only [List.cons_append, List.foldr_cons]
    by_cases h1 : e.u = x
    · rw [if_pos h1, if_pos h1, ih]
      rfl
    · rw [if_neg h1, if_neg h1]
      by_cases h2 : e.v = x
      · rw [if_pos h2, if_pos h2, ih]
        rfl
      · rw [if_neg h2, if_neg h2, ih]

theorem mnbrs_ofGraph (g : Graph) (x : V) :
    mnbrs (MultiGraph.ofGraph g).edges x = g.nbrs x := by
  unfold mnbrs MultiGraph.ofGraph Graph.nbrs
  rw [List.foldr_map]

theorem NStar_mono (nbrs1 nbrs2 : V → List V)
    (h : ∀ a, nbrs1 a ⊆ nbrs2 a) (s x : V)
    (hst : NStar nbrs1 s x) : NStar nbrs2 s x := by
  induction hst with
  | refl => exact NStar.refl
  | tail _ hmem ih => exact NStar.tail ih (h _ hmem)

theorem removeME_sublist (a b : V) : ∀ es : List MEdge,
    (removeME a b es).Sublist es := by
  intro es
  induction es with
  | nil => exact List.Sublist.refl _
  | cons e es ih =>
    unfold removeME
    by_cases h : sameUPair e.u e.v a b
    · rw [if_pos h]
      exact List.sublist_cons_self e es
    · rw [if_neg h]
      exact ih.cons₂ e

theorem removeME_length (a b : V) : ∀ es : List MEdge,
    (∃ e ∈ es, sameUPair e.u e.v a b) →
    (removeME a b es).length + 1 = es.length := by
  intro es
  induction es with
  | nil => intro h; simp at h
  | cons e es ih =>
    intro hex
    unfold removeME
    by_cases h : sameUPair e.u e.v a b
    · rw [if_pos h]
      rfl
    · rw [if_neg h]
      have hex2 : ∃ f ∈ es, sameUPair f.u f.v a b := by
        rcases hex with ⟨f, hf, hsf⟩
        rcases List.mem_cons.mp hf with rfl | hf
        · exact absurd hsf h
        · exact ⟨f, hf, hsf⟩
      have := ih hex2
      simp only [List.length_cons]
      omega

theorem removeME_edgesMS (a b : V) : ∀ es : List MEdge,
    (∃ e ∈ es, sameUPair e.u e.v a b) →
    edgesMS es = nPair a b ::ₘ edgesMS (removeME a b es) := by
  intro es
  induction es with
  | nil => intro h; simp at h
  | cons e es ih =>
    intro hex
    unfold removeME
    by_cases h : sameUPair e.u e.v a b
    · rw [if_pos h, edgesMS_cons, nPair_eq_of_sameUPair e.u e.v a b h]
    · rw [if_neg h]
      have hex2 : ∃ f ∈ es, sameUPair f.u f.v a b := by
        rcases hex with ⟨f, hf, hsf⟩
        rcases List.mem_cons.mp hf with rfl | hf
        · exact absurd hsf h
        · exact ⟨f, hf, hsf⟩
      rw [edgesMS_cons, edgesMS_cons, ih hex2, Multiset.cons_swap]

theorem ite_or_split (c x v : V) (hcx : c ≠ x) :
    (if v = c ∨ v = x then (1 : Nat) else 0) =
      (if v = c then 1 else 0) + (if v = x then 1 else 0) := by
  by_cases hvc : v = c
  · rw [if_pos (Or.inl hvc), if_pos hvc, if_neg (fun hvx => hcx (hvc.symm.trans hvx))]
  · by_cases hvx : v = x
    · rw [if_pos (Or.inr hvx), if_neg hvc, if_pos hvx]
    · rw [if_neg (fun h => h.elim hvc hvx), if_neg hvc, if_neg hvx]

theorem removeME_mdeg (a b : V) (hab : a ≠ b) :
    ∀ es : List MEdge, (∃ e ∈ es, sameUPair e.u e.v a b) →
    ∀ v, mdeg (removeME a b es) v + (if v = a ∨ v = b then 1 else 0) = mdeg es v := by
  intro es
  induction es with
  | nil => intro h; simp at h
  | cons e es ih =>
    intro hex v
    unfold removeME
    by_cases h : sameUPair e.u e.v a b
    · rw [if_pos h]
      unfold mdeg
      rw [List.countP_cons]
      have hcond : ((fun e => decide (e.u = v ∨ e.v = v)) e = true) ↔ (v = a ∨ v = b) := by
        simp only [decide_eq_true_eq]
        rcases h with ⟨h1, h2⟩ | ⟨h1, h2⟩
        · rw [h1, h2]
          exact or_congr eq_comm eq_comm
        · rw [h1, h2]
          rw [or_comm]
          exact or_congr eq_comm eq_comm
      rw [if_congr hcond rfl rfl]
    · rw [if_neg h]
      have hex2 : ∃ f ∈ es, sameUPair f.u f.v a b := by
        rcases hex with ⟨f, hf, hsf⟩
        rcases List.mem_cons.mp hf with rfl | hf
        · exact absurd hsf h
        · exact ⟨f, hf, hsf⟩
      have hih := ih hex2 v
      unfold mdeg
      rw [List.countP_cons, List.countP_cons]
      unfold mdeg at hih
      omega

theorem firstNbrME_none_mdeg (es : List MEdge) (c : V)
    (h : firstNbrME es c = none) : mdeg es c = 0 := by
  unfold firstNbrME at h
  cases hf : es.find? (fun e => decide (e.u = c ∨ e.v = c)) with
  | some e => rw [hf] at h; simp at h
  | none =>
    unfold mdeg
    rw [List.countP_eq_zero]
    intro e he
    exact List.find?_eq_none.mp hf e he

theorem firstNbrME_some_spec (es : List MEdge) (c x : V)
    (h : firstNbrME es c = some x) :
    ∃ e ∈ es, sameUPair e.u e.v c x := by
  unfold firstNbrME at h
  cases hf : es.find? (fun e => decide (e.u = c ∨ e.v = c)) with
  | none => rw [hf] at h; simp at h
  | some e =>
    rw [hf] at h
    simp only [Option.some.injEq] at h
    have hmem := List.mem_of_find?_eq_some hf
    have hpred := List.find?_some hf
    simp only [decide_eq_true_eq] at hpred
    refine ⟨e, hmem, ?_⟩
    by_cases h2 : e.u = c
    · rw [if_pos h2] at h
      exact Or.inl ⟨h2, h⟩
    · rw [if_neg h2] at h
      rcases hpred with h1 | h1
      · exact absurd h1 h2
      · exact Or.inr ⟨h, h1⟩

theorem hasEdgeAt_true_iff (es : List MEdge) (x : V) :
    hasEdgeAt es x = true ↔ 0 < mdeg es x := by
  unfold hasEdgeAt mdeg
  rw [List.countP_pos_iff, List.any_eq_true]

/-- Full specification of one Hierholzer walk: starting from c with the
stated parity charge, the walk is a trail from c ending at u0, removes
exactly the traversed edges, and leaves an all-even remainder. -/
theorem walkAux_spec :
    ∀ (fuel : Nat) (es : List MEdge) (c u0 : V),
      es.length ≤ fuel →
      (∀ e ∈ es, e.u ≠ e.v) →
      (∀ v, (mdeg es v + (if v = c then 1 else 0) + (if v = u0 then 1 else 0)) % 2 = 0) →
      (walkAux fuel es c).1.head? = some c ∧
      (walkAux fuel es c).1.getLast? = some u0 ∧
      edgesMS es = edgesMS (walkAux fuel es c).2 + pairsMS (walkAux fuel es c).1 ∧
      (walkAux fuel es c).2.Sublist es ∧
      (∀ v, mdeg (walkAux fuel es c).2 v % 2 = 0) ∧
      (mdeg es c = 0 ∨ (walkAux fuel es c).2.length < es.length) := by
  intro fuel
  induction fuel with
  | zero =>
    intro es c u0 hfuel hloop hpar
    have hes : es = [] := List.length_eq_zero.mp (Nat.le_zero.mp hfuel)
    subst hes
    have hcu : c = u0 := by
      have h := hpar c
      rw [if_pos rfl] at h
      by_cases hcu : c = u0
      · exact hcu
      · rw [if_neg hcu] at h
        simp [mdeg] at h
    subst hcu
    refine ⟨rfl, rfl, ?_, List.Sublist.refl _, ?_, Or.inl rfl⟩
    · show edgesMS [] = edgesMS [] + pairsMS [c]
      rw [pairsMS_single, add_zero]
    · intro v
      rfl
  | succ fuel ih =>
    intro es c u0 hfuel hloop hpar
    cases hfn : firstNbrME es c with
    | none =>
      have hred : walkAux (fuel + 1) es c = ([c], es) := by
        unfold walkAux
        rw [hfn]
      rw [hred]
      have hmdeg := firstNbrME_none_mdeg es c hfn
      have hcu : c = u0 := by
        have h := hpar c
        rw [if_pos rfl, hmdeg] at h
        by_cases hcu : c = u0
        · exact hcu
        · rw [if_neg hcu] at h
          simp at h
      subst hcu
      refine ⟨rfl, rfl, ?_, List.Sublist.refl _, ?_, Or.inl hmdeg⟩
      · show edgesMS es = edgesMS es + pairsMS [c]
        rw [pairsMS_single, add_zero]
      · intro v
        show mdeg es v % 2 = 0
        have h := hpar v
        by_cases hvc : v = c
        · rw [if_pos hvc] at h
          omega
        · rw [if_neg hvc] at h
          omega
    | some x =>
      have hred : walkAux (fuel + 1) es c =
          (c :: (walkAux fuel (removeME c x es) x).1,
            (walkAux fuel (removeME c x es) x).2) := by
        simp only [walkAux]
        rw [hfn]
      rw [hred]
      rcases firstNbrME_some_spec es c x hfn with ⟨e, he, hse⟩
      have hcx : c ≠ x := by
        rcases hse with ⟨h1, h2⟩ | ⟨h1, h2⟩
        · intro hc; exact hloop e he (h1.trans (hc.trans h2.symm))
        · intro hc; exact hloop e he (h1.trans (hc.symm.trans h2.symm))
      have hex : ∃ f ∈ es, sameUPair f.u f.v c x := ⟨e, he, hse⟩
      have hlen2 : (removeME c x es).length ≤ fuel := by
        have := removeME_length c x es hex
        omega
      have hloop2 : ∀ f ∈ removeME c x es, f.u ≠ f.v :=
        fun f hf => hloop f ((removeME_sublist c x es).subset hf)
      have hpar2 : ∀ v, (mdeg (removeME c x es) v + (if v = x then 1 else 0) +
          (if v = u0 then 1 else 0)) % 2 = 0 := by
        intro v
        have hrm := removeME_mdeg c x hcx es hex v
        rw [ite_or_split c x v hcx] at hrm
        have h := hpar v
        omega
      obtain ⟨ihh, ihl, ihms, ihsub, iheven, _⟩ := ih (removeME c x es) x u0 hlen2 hloop2 hpar2
      obtain ⟨y, ys, hys⟩ : ∃ y ys, (walkAux fuel (removeME c x es) x).1 = y :: ys := by
        cases hw : (walkAux fuel (removeME c x es) x).1 with
        | nil => rw [hw] at ihh; simp at ihh
        | cons y ys => exact ⟨y, ys, rfl⟩
      have hyx : y = x := by
        rw [hys] at ihh
        simpa using ihh
      refine ⟨rfl, ?_, ?_, ?_, ?_, ?_⟩
      · show (c :: (walkAux fuel (removeME c x es) x).1).getLast? = some u0
        rw [hys, List.getLast?_cons_cons, ← hys]
        exact ihl
      · show edgesMS es = edgesMS (walkAux fuel (removeME c x es) x).2 +
          pairsMS (c :: (walkAux fuel (removeME c x es) x).1)
        rw [removeME_edgesMS c x es hex, ihms, hys, hyx, pairsMS_cons2, Multiset.add_cons]
      · exact ihsub.trans (removeME_sublist c x es)
      · exact iheven
      · right
        show (walkAux fuel (removeME c x es) x).2.length < es.length
        have h1 := ihsub.length_le
        have h2 := removeME_length c x es hex
        omega

theorem spliceAt_head (u : V) (sub tour : List V) (hsh : sub.head? = some u) :
    (spliceAt u sub tour).head? = tour.head? := by
  cases tour with
  | nil => rfl
  | cons t ts =>
    unfold spliceAt
    by_cases ht : t = u
    · rw [if_pos ht]
      cases sub with
      | nil => simp at hsh
      | cons s ss =>
        simp at hsh
        subst hsh
        rw [ht]
        rfl
    · rw [if_neg ht]
      rfl

theorem getLast?_cons_of_ne_nil (a : V) (l : List V) (h : l ≠ []) :
    (a :: l).getLast? = l.getLast? := by
  cases l with
  | nil => exact absurd rfl h
  | cons b bs => exact List.getLast?_cons_cons

theorem getLast?_append_right (l1 l2 : List V) (h : l2 ≠ []) :
    (l1 ++ l2).getLast? = l2.getLast? := by
  induction l1 with
  | nil => rfl
  | cons a l1 ih =>
    rw [List.cons_append, getLast?_cons_of_ne_nil a _ (by
      intro hc
      exact h (List.append_eq_nil.mp hc).2), ih]

theorem spliceAt_getLast (u : V) (sub : List V) :
    ∀ tour : List V, u ∈ tour → sub.getLast? = some u →
    (spliceAt u sub tour).getLast? = tour.getLast? := by
  intro tour
  induction tour with
  | nil => intro hu; simp at hu
  | cons t ts ih =>
    intro hu hsl
    unfold spliceAt
    by_cases ht : t = u
    · rw [if_pos ht]
      cases ts with
      | nil =>
        rw [List.append_nil, hsl, ht]
        rfl
      | cons b ts2 =>
        rw [getLast?_append_right _ _ (by simp), List.getLast?_cons_cons]
    · rw [if_neg ht]
      have hu2 : u ∈ ts := by
        rcases List.mem_cons.mp hu with h | h
        · exact absurd h.symm ht
        · exact h
      have hts : ts ≠ [] := by
        intro hc; rw [hc] at hu2; simp at hu2
      have hrec := ih hu2 hsl
      have hsne : spliceAt u sub ts ≠ [] := by
        intro hc
        have h2 : ts.getLast?.isSome := List.getLast?_isSome.mpr hts
        rw [← hrec, hc] at h2
        simp at h2
      rw [getLast?_cons_of_ne_nil _ _ hsne, hrec, getLast?_cons_of_ne_nil _ _ hts]

theorem spliceAt_pairsOf_perm (u : V) (sub : List V)
    (hsh : sub.head? = some u) (hsl : sub.getLast? = some u) :
    ∀ tour : List V, u ∈ tour →
    List.Perm (pairsOf (spliceAt u sub tour)) (pairsOf sub ++ pairsOf tour) := by
  intro tour
  induction tour with
  | nil => intro hu; simp at hu
  | cons t ts ih =>
    intro hu
    unfold spliceAt
    by_cases ht : t = u
    · rw [if_pos ht]
      cases ts with
      | nil =>
        rw [List.append_nil]
        have h0 : pairsOf [t] = ([] : List (V × V)) := rfl
        rw [h0, List.append_nil]
      | cons b ts2 =>
        rw [pairsOf_append_cons u b ts2 sub hsl, ht]
        have h1 : pairsOf (u :: b :: ts2) = (u, b) :: pairsOf (b :: ts2) := rfl
        rw [h1]
    · rw [if_neg ht]
      have hu2 : u ∈ ts := by
        rcases List.mem_cons.mp hu with h | h
        · exact absurd h.symm ht
        · exact h
      have hts : ts ≠ [] := by
        intro hc; rw [hc] at hu2; simp at hu2
      obtain ⟨b, hb⟩ : ∃ b, ts.head? = some b := by
        cases ts with
        | nil => exact absurd rfl hts
        | cons b ts2 => exact ⟨b, rfl⟩
      have hsp : (spliceAt u sub ts).head? = some b := by
        rw [spliceAt_head u sub ts hsh, hb]
      rw [pairsOf_cons_head t b _ hsp, pairsOf_cons_head t b ts hb]
      exact ((ih hu2).cons (t, b)).trans List.perm_middle.symm

theorem spliceAt_pairsMS (u : V) (sub tour : List V) (hu : u ∈ tour)
    (hsh : sub.head? = some u) (hsl : sub.getLast? = some u) :
    pairsMS (spliceAt u sub tour) = pairsMS sub + pairsMS tour := by
  unfold pairsMS
  have hperm := (spliceAt_pairsOf_perm u sub hsh hsl tour hu).map
    (fun pq => nPair pq.1 pq.2)
  rw [← Multiset.coe_eq_coe] at hperm
  rw [hperm, List.map_append, ← Multiset.coe_add]

/-- Full specification of the Hierholzer splice loop: starting from a
closed tour, it returns a closed tour whose traversed pairs account for
exactly the consumed edges, and no remaining edge touches the tour. -/
theorem hierAux_spec :
    ∀ (fuel : Nat) (es tour : _) (v0 : V) (es0 : List MEdge),
      es.length ≤ fuel →
      es.Sublist es0 →
      (∀ e ∈ es, e.u ≠ e.v) →
      (∀ v, mdeg es v % 2 = 0) →
      tour.head? = some v0 → tour.getLast? = some v0 →
      edgesMS es0 = edgesMS es + pairsMS tour →
      (hierAux fuel es tour).1.head? = some v0 ∧
      (hierAux fuel es tour).1.getLast? = some v0 ∧
      edgesMS es0 = edgesMS (hierAux fuel es tour).2 + pairsMS (hierAux fuel es tour).1 ∧
      (hierAux fuel es tour).2.Sublist es0 ∧
      (∀ t ∈ (hierAux fuel es tour).1, hasEdgeAt (hierAux fuel es tour).2 t = false) := by
  intro fuel
  induction fuel with
  | zero =>
    intro es tour v0 es0 hfuel hsub hloop heven hh hl hms
    have hes : es = [] := List.length_eq_zero.mp (Nat.le_zero.mp hfuel)
    subst hes
    exact ⟨hh, hl, hms, hsub, fun t _ => rfl⟩
  | succ fuel ih =>
    intro es tour v0 es0 hfuel hsub hloop heven hh hl hms
    cases hf : tour.find? (fun x => hasEdgeAt es x) with
    | none =>
      have hred : hierAux (fuel + 1) es tour = (tour, es) := by
        simp only [hierAux]
        rw [hf]
      rw [hred]
      refine ⟨hh, hl, hms, hsub, ?_⟩
      intro t ht
      have hne := List.find?_eq_none.mp hf t ht
      cases hb : hasEdgeAt es t with
      | false => rfl
      | true => exact absurd hb hne
    | some u =>
      have hred : hierAux (fuel + 1) es tour =
          hierAux fuel (walkFrom es u).2 (spliceAt u (walkFrom es u).1 tour) := by
        simp only [hierAux]
        rw [hf]
      rw [hred]
      have humem : u ∈ tour := List.mem_of_find?_eq_some hf
      have hupred : hasEdgeAt es u = true := List.find?_some hf
      have hpar : ∀ v, (mdeg es v + (if v = u then 1 else 0) +
          (if v = u then 1 else 0)) % 2 = 0 := by
        intro v
        have := heven v
        by_cases hvu : v = u
        · rw [if_pos hvu]; omega
        · rw [if_neg hvu]; omega
      have hws := walkAux_spec es.length es u u (Nat.le_refl _)
        hloop hpar
      rw [show walkAux es.length es u = walkFrom es u from rfl] at hws
      obtain ⟨wh, wl, wms, wsub, weven, wdec⟩ := hws
      have hpos : 0 < mdeg es u := (hasEdgeAt_true_iff es u).mp hupred
      have hdec : (walkFrom es u).2.length < es.length := by
        rcases wdec with h | h
        · omega
        · exact h
      refine ih (walkFrom es u).2 (spliceAt u (walkFrom es u).1 tour) v0 es0
        (by omega) (wsub.trans hsub) (fun e he => hloop e (wsub.subset he)) weven ?_ ?_ ?_
      · rw [spliceAt_head u _ tour wh]
        exact hh
      · rw [spliceAt_getLast u _ tour humem wl]
        exact hl
      · rw [hms, wms, spliceAt_pairsMS u (walkFrom es u).1 tour humem wh wl, add_assoc]

/-- Once no tour vertex has a remaining edge and all consumed edges join
tour vertices, everything reachable from the tour lies on the tour. -/
theorem tour_absorbs (es0 rem : List MEdge) (tourF : List V)
    (hA : edgesMS es0 = edgesMS rem + pairsMS tourF)
    (hB : ∀ t ∈ tourF, hasEdgeAt rem t = false)
    (v0 : V) (hv0 : v0 ∈ tourF) :
    ∀ x, NStar (mnbrs es0) v0 x → x ∈ tourF := by
  intro x hx
  induction hx with
  | refl => exact hv0
  | @tail a b hst hmem ihx =>
    rcases (mem_mnbrs_iff es0 a b).mp hmem with ⟨e, he, hor⟩
    have hin : nPair e.u e.v ∈ edgesMS es0 := by
      unfold edgesMS
      rw [Multiset.mem_coe]
      exact List.mem_map_of_mem _ he
    rw [hA] at hin
    rcases Multiset.mem_add.mp hin with hin | hin
    · exfalso
      unfold edgesMS at hin
      rw [Multiset.mem_coe] at hin
      rcases List.mem_map.mp hin with ⟨f, hf, hfe⟩
      have hsp := sameUPair_of_nPair_eq f.u f.v e.u e.v hfe
      have hfa : f.u = a ∨ f.v = a := by
        rcases hor with ⟨h1, h2⟩ | ⟨h1, h2⟩
        · rcases hsp with ⟨g1, g2⟩ | ⟨g1, g2⟩
          · exact Or.inl (g1.trans h1)
          · exact Or.inr (g2.trans h1)
        · rcases hsp with ⟨g1, g2⟩ | ⟨g1, g2⟩
          · exact Or.inr (g2.trans h2)
          · exact Or.inl (g1.trans h2)
      have htrue : hasEdgeAt rem a = true := by
        unfold hasEdgeAt
        rw [List.any_eq_true]
        refine ⟨f, hf, ?_⟩
        show decide (f.u = a ∨ f.v = a) = true
        exact decide_eq_true hfa
      rw [hB a ihx] at htrue
      exact Bool.false_ne_true htrue
    · unfold pairsMS at hin
      rw [Multiset.mem_coe] at hin
      rcases List.mem_map.mp hin with ⟨pq, hpq, hpqe⟩
      have hsp := sameUPair_of_nPair_eq pq.1 pq.2 e.u e.v hpqe
      have hmemt := pairsOf_mem_mem tourF pq hpq
      have hb2 : b = pq.1 ∨ b = pq.2 := by
        rcases hor with ⟨h1, h2⟩ | ⟨h1, h2⟩
        · rcases hsp with ⟨g1, g2⟩ | ⟨g1, g2⟩
          · exact Or.inr (h2.symm.trans g2.symm)
          · exact Or.inl (h2.symm.trans g1.symm)
        · rcases hsp with ⟨g1, g2⟩ | ⟨g1, g2⟩
          · exact Or.inl (h1.symm.trans g1.symm)
          · exact Or.inr (h1.symm.trans g2.symm)
      rcases hb2 with hb2 | hb2
      · rw [hb2]
        exact hmemt.1
      · rw [hb2]
        exact hmemt.2

theorem circuit_nodes_eq (t : List V) (v : V) (hh : t.head? = some v)
    (hl : t.getLast? = some v) (c0 : V × V) (rest : List (V × V))
    (hp : pairsOf t = c0 :: rest) :
    ((c0 :: rest).map Prod.fst) ++ [c0.1] = t := by
  cases t with
  | nil => simp at hh
  | cons a t2 =>
    cases t2 with
    | nil =>
      rw [show pairsOf [a] = ([] : List (V × V)) from rfl] at hp
      simp at hp
    | cons b t3 =>
      rw [show pairsOf (a :: b :: t3) = (a, b) :: pairsOf (b :: t3) from rfl] at hp
      injection hp with h1 h2
      subst h1
      subst h2
      have hav : a = v := by simpa using hh
      have hne2 : (a :: b :: t3) ≠ [] := by simp
      have hgl0 := List.getLast?_eq_getLast (a :: b :: t3) hne2
      rw [hl] at hgl0
      have hgl : (a :: b :: t3).getLast hne2 = v := by
        injection hgl0 with h3
        exact h3.symm
      show (a :: ((pairsOf (b :: t3)).map Prod.fst)) ++ [a] = a :: b :: t3
      rw [pairsOf_map_fst (b :: t3) (by simp)]
      have hstep : (a :: (b :: t3).dropLast) ++ [a] =
          (a :: b :: t3).dropLast ++ [(a :: b :: t3).getLast hne2] := by
        rw [hgl, ← hav]
        rfl
      rw [hstep]
      exact List.dropLast_append_getLast hne2

theorem augE_endpoints (g : Graph) (hwf : g.WF) (added : List MEdge)
    (hmemw : ∀ me ∈ added, baseWeight g me.u me.v = some me.weight) :
    ∀ me ∈ (MultiGraph.ofGraph g).edges ++ added,
      me.u ∈ g.nodes ∧ me.v ∈ g.nodes ∧ me.u ≠ me.v := by
  intro me hme
  rcases List.mem_append.mp hme with hme | hme
  · unfold MultiGraph.ofGraph at hme
    rcases List.mem_map.mp hme with ⟨e, he, rfl⟩
    exact ⟨(hwf.2.1 e he).1, (hwf.2.1 e he).2.1, (hwf.2.1 e he).2.2⟩
  · rcases baseWeight_mem g me.u me.v me.weight (hmemw me hme) with ⟨e0, he0, _, hsp⟩
    rcases hsp with ⟨h1, h2⟩ | ⟨h1, h2⟩
    · exact ⟨h1 ▸ (hwf.2.1 e0 he0).1, h2 ▸ (hwf.2.1 e0 he0).2.1,
        fun hc => (hwf.2.1 e0 he0).2.2 (h1.trans (hc.trans h2.symm))⟩
    · exact ⟨h2 ▸ (hwf.2.1 e0 he0).2.1, h1 ▸ (hwf.2.1 e0 he0).1,
        fun hc => (hwf.2.1 e0 he0).2.2 ((h2.trans (hc.trans h1.symm)).symm)⟩

theorem mnbrs_base_sub (g : Graph) (added : List MEdge) :
    ∀ x y, y ∈ g.nbrs x → y ∈ mnbrs ((MultiGraph.ofGraph g).edges ++ added) x := by
  intro x y h
  rw [mnbrs_append]
  apply List.mem_append_left
  rw [mnbrs_ofGraph]
  exact h

/-- The modelled nx.eulerian_circuit on the augmented multigraph: on a
connected all-even multigraph over the base nodes it returns the pair
list of a closed tour that traverses every edge, with multiplicity,
exactly once. -/
theorem eulerian_circuit_spec (g : Graph) (hconn : g.Connected)
    (E : List MEdge) (v : V) (rest : List V) (hn : g.nodes = v :: rest)
    (hE : ∀ me ∈ E, me.u ∈ g.nodes ∧ me.v ∈ g.nodes ∧ me.u ≠ me.v)
    (heven : ∀ x, mdeg E x % 2 = 0)
    (hbase : ∀ x y, y ∈ g.nbrs x → y ∈ mnbrs E x) :
    ∃ t, eulerian_circuit ⟨g.nodes, g.nodeAttrs, E⟩ = .ok (pairsOf t) ∧
      t.head? = some v ∧ t.getLast? = some v ∧
      edgesMS E = pairsMS t := by
  have hU : ∀ y, ∀ w ∈ mnbrs E y, w ∈ g.nodes := by
    intro y w hw
    rcases (mem_mnbrs_iff E y w).mp hw with ⟨e, he, hor⟩
    rcases hor with ⟨h1, h2⟩ | ⟨h1, h2⟩
    · exact h2 ▸ (hE e he).2.1
    · exact h1 ▸ (hE e he).1
  have hvnode : v ∈ g.nodes := by
    rw [hn]
    exact List.mem_cons_self _ _
  have hNS : ∀ x ∈ g.nodes, NStar (mnbrs E) v x := by
    intro x hx
    exact NStar_mono g.nbrs (mnbrs E) (fun a y hy => hbase a y hy) v x
      (connected_reach g hconn v x hvnode hx)
  have hcomp : ∀ x ∈ g.nodes, x ∈ reachSet (mnbrs E) g.nodes.length v :=
    fun x hx => reachSet_complete (mnbrs E) g.nodes hU v hvnode x (hNS x hx)
  have hmc : mconn ⟨g.nodes, g.nodeAttrs, E⟩ = .ok true := by
    unfold mconn
    dsimp only
    rw [hn]
    dsimp only
    have hall : (v :: rest).all
        (fun x => decide (x ∈ reachSet (mnbrs E) (v :: rest).length v)) = true := by
      rw [List.all_eq_true]
      intro x hx
      have hx2 := hcomp x (by rw [hn]; exact hx)
      rw [hn] at hx2
      exact decide_eq_true hx2
    rw [hall]
  have hhs := hierAux_spec E.length E [v] v E (Nat.le_refl _)
    (List.Sublist.refl _) (fun e he => (hE e he).2.2) heven rfl rfl
    (by rw [pairsMS_single, add_zero])
  obtain ⟨th, tl, tms, tsub, tB⟩ := hhs
  have hv0mem : v ∈ (hierAux E.length E [v]).1 := by
    cases htc : (hierAux E.length E [v]).1 with
    | nil => rw [htc] at th; simp at th
    | cons a tl2 =>
      rw [htc] at th
      simp at th
      rw [th]
      exact List.mem_cons_self _ _
  have habs := tour_absorbs E (hierAux E.length E [v]).2 (hierAux E.length E [v]).1
    tms tB v hv0mem
  have hrem : (hierAux E.length E [v]).2 = [] := by
    cases hrc : (hierAux E.length E [v]).2 with
    | nil => rfl
    | cons me rems =>
      exfalso
      have hmeE : me ∈ E := tsub.subset (by rw [hrc]; exact List.mem_cons_self _ _)
      have htu : me.u ∈ (hierAux E.length E [v]).1 :=
        habs me.u (hNS me.u (hE me hmeE).1)
      have htrue : hasEdgeAt (hierAux E.length E [v]).2 me.u = true := by
        unfold hasEdgeAt
        rw [List.any_eq_true]
        refine ⟨me, by rw [hrc]; exact List.mem_cons_self _ _, ?_⟩
        show decide (me.u = me.u ∨ me.v = me.u) = true
        exact decide_eq_true (Or.inl rfl)
      rw [tB me.u htu] at htrue
      exact Bool.false_ne_true htrue
  rw [hrem] at tms
  rw [show edgesMS [] = (0 : Multiset (V × V)) from rfl, zero_add] at tms
  refine ⟨(hierAux E.length E [v]).1, ?_, th, tl, tms⟩
  unfold eulerian_circuit
  rw [hmc]
  dsimp only
  have hallE : (⟨g.nodes, g.nodeAttrs, E⟩ : MultiGraph).nodes.all
      (fun x => decide (mdeg (⟨g.nodes, g.nodeAttrs, E⟩ : MultiGraph).edges x % 2 = 0)) = true := by
    rw [List.all_eq_true]
    intro x _
    exact decide_eq_true (heven x)
  have hcond : (true && (⟨g.nodes, g.nodeAttrs, E⟩ : MultiGraph).nodes.all
      (fun x => decide (mdeg (⟨g.nodes, g.nodeAttrs, E⟩ : MultiGraph).edges x % 2 = 0))) = true := by
    rw [hallE]
    rfl
  rw [hcond]
  rw [if_pos rfl]
  rw [hn]

/-- C3: for every connected well-formed base graph with at least one
edge, chinese_postman_path returns a closed node sequence whose
consecutive pairs are exactly the augmented multigraph's edge multiset
(each edge, duplicates counted, traversed exactly once), and whose pair
count equals the multigraph's edge count. -/
theorem C3_circuit_closed_covers_multigraph_once (g : Graph) (hwf : g.WF)
    (hconn : g.Connected) (hne : g.edges ≠ []) :
    ∃ mg ns, chinese_postman_path g = .ok (mg, ns) ∧ ns ≠ [] ∧
      ns.head? = ns.getLast? ∧ pairsMS ns = edgesMS mg.edges ∧
      (pairsOf ns).length = mg.edges.length := by
  rcases cpp_augment_spec g hwf hconn with ⟨added, hok, hmemw, heven, _, _⟩
  obtain ⟨e0, he0⟩ := List.exists_mem_of_ne_nil _ hne
  have hnodes : g.nodes ≠ [] := by
    intro hc
    have := (hwf.2.1 e0 he0).1
    rw [hc] at this
    simp at this
  obtain ⟨v, rest, hn⟩ : ∃ v rest, g.nodes = v :: rest := by
    cases hc : g.nodes with
    | nil => exact absurd hc hnodes
    | cons v rest => exact ⟨v, rest, rfl⟩
  obtain ⟨t, heval, th, tl, tms⟩ := eulerian_circuit_spec g hconn
    ((MultiGraph.ofGraph g).edges ++ added) v rest hn
    (augE_endpoints g hwf added hmemw) heven (mnbrs_base_sub g added)
  have hlen : (pairsOf t).length = ((MultiGraph.ofGraph g).edges ++ added).length := by
    have hc := congrArg Multiset.card tms
    unfold edgesMS pairsMS at hc
    rw [Multiset.coe_card, Multiset.coe_card, List.length_map, List.length_map] at hc
    exact hc.symm
  have hElen : 0 < ((MultiGraph.ofGraph g).edges ++ added).length := by
    rw [List.length_append]
    have h1 : 0 < (MultiGraph.ofGraph g).edges.length := by
      unfold MultiGraph.ofGraph
      rw [List.length_map]
      cases hc : g.edges with
      | nil => exact absurd hc hne
      | cons a l => simp
    omega
  obtain ⟨c0, restc, hpc⟩ : ∃ c0 restc, pairsOf t = c0 :: restc := by
    cases hc : pairsOf t with
    | nil =>
      rw [hc] at hlen
      simp only [List.length_nil] at hlen
      omega
    | cons c0 restc => exact ⟨c0, restc, rfl⟩
  have hred : chinese_postman_path g =
      .ok (⟨g.nodes, g.nodeAttrs, (MultiGraph.ofGraph g).edges ++ added⟩,
        ((c0 :: restc).map Prod.fst) ++ [c0.1]) := by
    unfold chinese_postman_path
    rw [hok]
    dsimp only
    rw [heval, hpc]
  have hns := circuit_nodes_eq t v th tl c0 restc hpc
  refine ⟨_, _, hred, ?_, ?_, ?_, ?_⟩
  · rw [hns]
    intro hc
    rw [hc] at th
    simp at th
  · rw [hns, th, tl]
  · rw [hns]
    exact tms.symm
  · rw [hns]
    exact hlen

/-- C3 witness: the single-edge graph G1. -/
theorem C3_witness_single_edge :
    G1.WF ∧ G1.Connected ∧ G1.edges ≠ [] ∧
    ∃ mg ns, chinese_postman_path G1 = .ok (mg, ns) ∧ ns ≠ [] ∧
      ns.head? = ns.getLast? ∧ pairsMS ns = edgesMS mg.edges ∧
      (pairsOf ns).length = mg.edges.length :=
  ⟨by decide, by decide, by decide,
    C3_circuit_closed_covers_multigraph_once G1 (by decide) (by decide) (by decide)⟩

/-- C9: chinese_postman_path leaves the base graph object unchanged —
its node list, attribute list and edge list (weights and ids included)
are identical after the call, every mutation landing on the fresh
multigraph copy — and the mutation-explicit run returns exactly what the
pure pipeline returns. -/
theorem C9_base_graph_left_unchanged (g : Graph) :
    (cpp_run g).1 = g ∧ (cpp_run g).2 = chinese_postman_path g := by
  unfold cpp_run chinese_postman_path cpp_augment
  cases hog : odd_graph g with
  | error e => exact ⟨rfl, rfl⟩
  | ok og =>
    dsimp only
    cases haug : augment g (MultiGraph.ofGraph g).edges (max_weight_matching og) with
    | error e =>
      have h2 := augmentS_err (max_weight_matching og) ⟨g, MultiGraph.ofGraph g⟩ e haug
      have h1 := augmentS_base (max_weight_matching og) ⟨g, MultiGraph.ofGraph g⟩
      cases hs : augmentS ⟨g, MultiGraph.ofGraph g⟩ (max_weight_matching og) with
      | mk s1 err =>
        rw [hs] at h1 h2
        simp only at h1 h2
        subst h2
        exact ⟨h1, rfl⟩
    | ok es =>
      have h2 := augmentS_ok (max_weight_matching og) ⟨g, MultiGraph.ofGraph g⟩ es haug
      rw [h2]
      dsimp only [MultiGraph.ofGraph]
      cases hec : eulerian_circuit ⟨g.nodes, g.nodeAttrs, es⟩ with
      | error e => exact ⟨rfl, rfl⟩
      | ok circuit =>
        cases circuit with
        | nil => exact ⟨rfl, rfl⟩
        | cons c0 rest => exact ⟨rfl, rfl⟩

end Postman
